import Mathlib

/-
Verification of the matching core of src/MatchAngin/MatchEngine.cpp.

Embedding conventions:
- C++ `double` prices are modelled as `Rat`.  Order prices enter the book only
  through `add_order` and are never combined arithmetically, so exact rational
  arithmetic coincides with IEEE behaviour on every representable input.
- `bid_prices`/`bid_price_map` (resp. ask) are maintained in lockstep by the
  source; they are modelled as a single association list of `PriceLevel`s.
- `order_id_map` shares `shared_ptr<Order>` objects with the level queues; the
  authoritative mutable field (`quantity`) lives in the queues, so the map is
  modelled as an association list from id to the immutable pair
  `(is_buy, price)`.
- Thrown exceptions become `Except` errors: `std::invalid_argument` is
  `BookError.invalidArgument`, the `cancel_order` "Order not found" throw is
  `BookError.notFound`, and the crashes that are unreachable in coherent books
  (null `shared_ptr` deref through `operator[]`, the `PriceLevel::remove_order`
  throw) are `BookError.internalError`.  Operations return the resulting book
  alongside the result; a throwing path returns the book unchanged, matching
  the source, where every throw happens before the first mutation.
- In `execute_trades`, the source erases the front of a level's order vector
  and only afterwards reads `bid_order->id` through a reference into that
  vector; per the C++ standard the reference is invalidated by the erase.  The
  embedding reads the traded order's fields at binding time (value semantics
  for the object the `shared_ptr` designated), which is the behaviour the
  surrounding code and its log messages assume.
-/

deriving instance DecidableEq for Except

namespace MatchEngine

structure Order where
  id : Int
  is_buy : Bool
  quantity : Int
  price : Rat
  client_id : Int
deriving DecidableEq

structure PriceLevel where
  price : Rat
  orders : List Order
  total_quantity : Int
deriving DecidableEq

inductive BookError where
  | invalidArgument
  | notFound
  | internalError
deriving DecidableEq

structure OrderBook where
  bids : List PriceLevel
  asks : List PriceLevel
  order_id_map : List (Int × Bool × Rat)
  current_order_id : Int
deriving DecidableEq

structure TradeRecord where
  buy_id : Int
  sell_id : Int
  quantity : Int
  price : Rat
deriving DecidableEq

/-- PriceLevel::add_order: push_back plus total_quantity update. -/
def PriceLevel.add_order (lvl : PriceLevel) (o : Order) : PriceLevel :=
  { lvl with orders := lvl.orders ++ [o], total_quantity := lvl.total_quantity + o.quantity }

/-- Erase the first order with the given id, returning it and the rest. -/
def removeFirstById : List Order → Int → Option (Order × List Order)
  | [], _ => none
  | o :: rest, oid =>
    if o.id = oid then some (o, rest)
    else
      match removeFirstById rest oid with
      | some (found, rest2) => some (found, o :: rest2)
      | none => none

/-- PriceLevel::remove_order; `none` models the "Order not found in PriceLevel" throw. -/
def PriceLevel.remove_order (lvl : PriceLevel) (oid : Int) : Option PriceLevel :=
  match removeFirstById lvl.orders oid with
  | some (found, rest) =>
      some { lvl with orders := rest, total_quantity := lvl.total_quantity - found.quantity }
  | none => none

/-- unordered_map::find on a price-indexed side. -/
def findLevel : List PriceLevel → Rat → Option PriceLevel
  | [], _ => none
  | l :: rest, p => if l.price = p then some l else findLevel rest p

/-- In-place mutation of the level stored at a price key. -/
def updateLevel : List PriceLevel → Rat → PriceLevel → List PriceLevel
  | [], _, _ => []
  | l :: rest, p, nl => if l.price = p then nl :: rest else l :: updateLevel rest p nl

/-- unordered_map::erase of a price key (with its price-set entry). -/
def removeLevel : List PriceLevel → Rat → List PriceLevel
  | [], _ => []
  | l :: rest, p => if l.price = p then rest else l :: removeLevel rest p

/-- order_id_map::find, restricted to the immutable order fields. -/
def findId : List (Int × Bool × Rat) → Int → Option (Bool × Rat)
  | [], _ => none
  | e :: rest, oid => if e.1 = oid then some e.2 else findId rest oid

/-- order_id_map::erase. -/
def removeId : List (Int × Bool × Rat) → Int → List (Int × Bool × Rat)
  | [], _ => []
  | e :: rest, oid => if e.1 = oid then rest else e :: removeId rest oid

/-- order_id_map::emplace: inserts only when the key is absent. -/
def emplaceId (m : List (Int × Bool × Rat)) (oid : Int) (v : Bool × Rat) :
    List (Int × Bool × Rat) :=
  match findId m oid with
  | some _ => m
  | none => (oid, v.1, v.2) :: m

def foldMaxPrice : List PriceLevel → Rat → Rat
  | [], acc => acc
  | l :: rest, acc => foldMaxPrice rest (max acc l.price)

def foldMinPrice : List PriceLevel → Rat → Rat
  | [], acc => acc
  | l :: rest, acc => foldMinPrice rest (min acc l.price)

/-- OrderBook::get_best_bid: -1 when empty, else the maximal bid price. -/
def get_best_bid (b : OrderBook) : Rat :=
  match b.bids with
  | [] => -1
  | l :: rest => foldMaxPrice rest l.price

/-- OrderBook::get_best_ask: -1 when empty, else the minimal ask price. -/
def get_best_ask (b : OrderBook) : Rat :=
  match b.asks with
  | [] => -1
  | l :: rest => foldMinPrice rest l.price

/-- OrderBook::add_order. -/
def OrderBook.add_order (b : OrderBook) (is_buy : Bool) (quantity : Int) (price : Rat)
    (client_id : Int) : Except BookError Int × OrderBook :=
  if quantity ≤ 0 ∨ price ≤ 0 then
    (Except.error BookError.invalidArgument, b)
  else
    let oid := b.current_order_id + 1
    let o : Order := ⟨oid, is_buy, quantity, price, client_id⟩
    let idm := emplaceId b.order_id_map oid (is_buy, price)
    if is_buy then
      match findLevel b.bids price with
      | some lvl =>
          (Except.ok oid,
            { b with bids := updateLevel b.bids price (lvl.add_order o),
                     order_id_map := idm, current_order_id := oid })
      | none =>
          (Except.ok oid,
            { b with bids := PriceLevel.add_order ⟨price, [], 0⟩ o :: b.bids,
                     order_id_map := idm, current_order_id := oid })
    else
      match findLevel b.asks price with
      | some lvl =>
          (Except.ok oid,
            { b with asks := updateLevel b.asks price (lvl.add_order o),
                     order_id_map := idm, current_order_id := oid })
      | none =>
          (Except.ok oid,
            { b with asks := PriceLevel.add_order ⟨price, [], 0⟩ o :: b.asks,
                     order_id_map := idm, current_order_id := oid })

/-- OrderBook::cancel_order. -/
def OrderBook.cancel_order (b : OrderBook) (oid : Int) : Except BookError Unit × OrderBook :=
  match findId b.order_id_map oid with
  | none => (Except.error BookError.notFound, b)
  | some (buy, p) =>
    if buy then
      match findLevel b.bids p with
      | none => (Except.error BookError.internalError, b)
      | some lvl =>
        match lvl.remove_order oid with
        | none => (Except.error BookError.internalError, b)
        | some lvl2 =>
          (Except.ok (),
            { b with
                bids := if lvl2.total_quantity = 0 then removeLevel b.bids p
                        else updateLevel b.bids p lvl2,
                order_id_map := removeId b.order_id_map oid })
    else
      match findLevel b.asks p with
      | none => (Except.error BookError.internalError, b)
      | some lvl =>
        match lvl.remove_order oid with
        | none => (Except.error BookError.internalError, b)
        | some lvl2 =>
          (Except.ok (),
            { b with
                asks := if lvl2.total_quantity = 0 then removeLevel b.asks p
                        else updateLevel b.asks p lvl2,
                order_id_map := removeId b.order_id_map oid })

/--
The front order of a queue after a fill of `traded`: its quantity is reduced
in place and it is popped exactly when the remaining quantity hits zero.
-/
def fillOrders (o : Order) (rest : List Order) (traded : Int) : List Order :=
  if o.quantity - traded = 0 then rest
  else { o with quantity := o.quantity - traded } :: rest

/-- order_id_map after a fill: the order's id is erased exactly when it is fully filled. -/
def fillMap (m : List (Int × Bool × Rat)) (o : Order) (traded : Int) :
    List (Int × Bool × Rat) :=
  if o.quantity - traded = 0 then removeId m o.id else m

/-- A side after replacing the level at `p` by `nl`, dropping it when its queue emptied. -/
def shrinkSide (ls : List PriceLevel) (p : Rat) (nl : PriceLevel) : List PriceLevel :=
  if nl.orders = [] then removeLevel ls p else updateLevel ls p nl

/--
The trade portion of one execute_trades iteration: both front orders exist,
`traded = min` of the two quantities is filled, fully-filled orders leave
their queue and the id map, emptied levels leave the book.
-/
def tradeFill (b : OrderBook) (best_bid best_ask : Rat) (bl al : PriceLevel)
    (bo : Order) (brest : List Order) (ao : Order) (arest : List Order) :
    TradeRecord × OrderBook :=
  let traded := min bo.quantity ao.quantity
  let tr : TradeRecord := ⟨bo.id, ao.id, traded, best_ask⟩
  let bl2 : PriceLevel :=
    { bl with orders := fillOrders bo brest traded,
              total_quantity := bl.total_quantity - traded }
  let al2 : PriceLevel :=
    { al with orders := fillOrders ao arest traded,
              total_quantity := al.total_quantity - traded }
  (tr,
    { b with
        bids := shrinkSide b.bids best_bid bl2,
        asks := shrinkSide b.asks best_ask al2,
        order_id_map := fillMap (fillMap b.order_id_map bo traded) ao traded })

/-- The empty-level cleanup iteration of execute_trades (the `continue` branch). -/
def cleanupStep (b : OrderBook) (best_bid best_ask : Rat) (bl al : PriceLevel) : OrderBook :=
  { b with
      bids := if bl.orders = [] then removeLevel b.bids best_bid else b.bids,
      asks := if al.orders = [] then removeLevel b.asks best_ask else b.asks }

/--
One iteration of the OrderBook::execute_trades while-loop.
`none` means the loop guard fails and the loop exits;
`some (none, b2)` is the empty-level cleanup iteration;
`some (some t, b2)` is a trade iteration emitting `t`.
-/
def execStep (b : OrderBook) : Option (Option TradeRecord × OrderBook) :=
  let best_bid := get_best_bid b
  let best_ask := get_best_ask b
  if best_bid = -1 ∨ best_ask = -1 ∨ best_bid < best_ask then
    none
  else
    match findLevel b.bids best_bid, findLevel b.asks best_ask with
    | some bl, some al =>
      match bl.orders, al.orders with
      | bo :: brest, ao :: arest =>
        let r := tradeFill b best_bid best_ask bl al bo brest ao arest
        some (some r.1, r.2)
      | _, _ => some (none, cleanupStep b best_bid best_ask bl al)
    | _, _ => none

def sideOrderCount (ls : List PriceLevel) : Nat := (ls.map (fun l => l.orders.length)).sum

/-- Loop variant: total queued orders plus total levels. -/
def bookMeasure (b : OrderBook) : Nat :=
  sideOrderCount b.bids + sideOrderCount b.asks + b.bids.length + b.asks.length

def execLoopN : Nat → OrderBook → List TradeRecord × OrderBook
  | 0, b => ([], b)
  | fuel + 1, b =>
    match execStep b with
    | none => ([], b)
    | some (none, b2) => execLoopN fuel b2
    | some (some t, b2) =>
      let r := execLoopN fuel b2
      (t :: r.1, r.2)

/--
OrderBook::execute_trades.  `bookMeasure b + 1` rounds of the loop body always
reach the loop exit (theorem `execLoopN_quiescent` below), so this computes the
full run of the source's while-loop.
-/
def OrderBook.execute_trades (b : OrderBook) : List TradeRecord × OrderBook :=
  execLoopN (bookMeasure b + 1) b

/-- C++ double-to-int conversion: truncation toward zero. -/
def doubleToInt (q : Rat) : Int := Int.tdiv q.num (q.den : Int)

def insertDesc (x : Int) : List Int → List Int
  | [] => [x]
  | y :: rest => if y < x then x :: y :: rest else y :: insertDesc x rest

def sortDesc : List Int → List Int
  | [] => []
  | x :: rest => insertDesc x (sortDesc rest)

def insertAsc (x : Int) : List Int → List Int
  | [] => [x]
  | y :: rest => if x < y then x :: y :: rest else y :: insertAsc x rest

def sortAsc : List Int → List Int
  | [] => []
  | x :: rest => insertAsc x (sortAsc rest)

/--
One "  <price> : <total_quantity>" line per sorted (truncated) price; the map
is keyed by the original double prices, so `at` on the int price converted
back to double throws std::out_of_range (modelled as `Except.error ()`) when
the stored price was not integral.
-/
def renderSide (m : List PriceLevel) : List Int → Except Unit String
  | [] => Except.ok ""
  | p :: rest =>
    match findLevel m ((p : Rat)) with
    | none => Except.error ()
    | some l =>
      match renderSide m rest with
      | Except.ok tail =>
          Except.ok ("  " ++ toString p ++ " : " ++ toString l.total_quantity ++ "\n" ++ tail)
      | Except.error e => Except.error e

/-- OrderBook::get_order_book_string, including its int-truncated price vectors. -/
def OrderBook.get_order_book_string (b : OrderBook) : Except Unit String :=
  let bid_prices_sorted := sortDesc (b.bids.map (fun l => doubleToInt l.price))
  let ask_prices_sorted := sortAsc (b.asks.map (fun l => doubleToInt l.price))
  match renderSide b.bids bid_prices_sorted with
  | Except.error e => Except.error e
  | Except.ok bidPart =>
    match renderSide b.asks ask_prices_sorted with
    | Except.error e => Except.error e
    | Except.ok askPart => Except.ok ("BIDS:\n" ++ bidPart ++ "ASKS:\n" ++ askPart)

def emptyBook : OrderBook := ⟨[], [], [], 0⟩

/-
Decomposition lemmas for the association-list primitives.
-/

theorem findLevel_decomp {ls : List PriceLevel} {p : Rat} {l : PriceLevel}
    (h : findLevel ls p = some l) :
    l.price = p ∧ ∃ pre post, ls = pre ++ l :: post ∧ (∀ x ∈ pre, x.price ≠ p) ∧
      removeLevel ls p = pre ++ post ∧ ∀ nl, updateLevel ls p nl = pre ++ nl :: post := by
  induction ls with
  | nil => simp [findLevel] at h
  | cons hd rest ih =>
    by_cases hp : hd.price = p
    · rw [findLevel, if_pos hp] at h
      obtain rfl : hd = l := by injection h
      exact ⟨hp, [], rest, rfl, by simp, by simp [removeLevel, hp],
        fun nl => by simp [updateLevel, hp]⟩
    · rw [findLevel, if_neg hp] at h
      obtain ⟨hlp, pre, post, hls, hpre, hrem, hupd⟩ := ih h
      refine ⟨hlp, hd :: pre, post, by simp [hls], ?_, ?_, ?_⟩
      · intro x hx
        rcases List.mem_cons.mp hx with hx | hx
        · exact hx ▸ hp
        · exact hpre x hx
      · simp [removeLevel, hp, hrem]
      · intro nl; simp [updateLevel, hp, hupd nl]

theorem findLevel_mem {ls : List PriceLevel} {p : Rat} {l : PriceLevel}
    (h : findLevel ls p = some l) : l ∈ ls ∧ l.price = p := by
  obtain ⟨hlp, pre, post, hls, -, -, -⟩ := findLevel_decomp h
  exact ⟨hls ▸ List.mem_append_right pre (List.mem_cons_self l post), hlp⟩

theorem findLevel_eq_none {ls : List PriceLevel} {p : Rat} :
    findLevel ls p = none ↔ ∀ l ∈ ls, l.price ≠ p := by
  induction ls with
  | nil => simp [findLevel]
  | cons hd rest ih =>
    by_cases hp : hd.price = p
    · simp [findLevel, hp]
    · simp [findLevel, hp, ih]

theorem findLevel_isSome {ls : List PriceLevel} {p : Rat} {l : PriceLevel}
    (hmem : l ∈ ls) (hp : l.price = p) : ∃ l2, findLevel ls p = some l2 := by
  cases hfind : findLevel ls p with
  | some l2 => exact ⟨l2, rfl⟩
  | none => exact absurd hp (findLevel_eq_none.mp hfind l hmem)

theorem findLevel_of_mem_nodup {ls : List PriceLevel} {p : Rat} {l : PriceLevel}
    (hnd : (ls.map (fun x => x.price)).Nodup) (hmem : l ∈ ls) (hp : l.price = p) :
    findLevel ls p = some l := by
  induction ls with
  | nil => cases hmem
  | cons hd rest ih =>
    rw [List.map_cons, List.nodup_cons] at hnd
    rcases List.mem_cons.mp hmem with rfl | hmem2
    · rw [findLevel, if_pos hp]
    · have hne : hd.price ≠ p := by
        intro hcontra
        exact hnd.1 (hcontra ▸ hp ▸ List.mem_map_of_mem (fun x => x.price) hmem2)
      rw [findLevel, if_neg hne]
      exact ih hnd.2 hmem2

theorem findId_decomp {m : List (Int × Bool × Rat)} {oid : Int} {v : Bool × Rat}
    (h : findId m oid = some v) :
    ∃ pre post, m = pre ++ (oid, v) :: post ∧ (∀ e ∈ pre, e.1 ≠ oid) ∧
      removeId m oid = pre ++ post := by
  induction m with
  | nil => simp [findId] at h
  | cons hd rest ih =>
    by_cases hk : hd.1 = oid
    · rw [findId, if_pos hk] at h
      obtain rfl : hd.2 = v := by injection h
      refine ⟨[], rest, ?_, by simp, by simp [removeId, hk]⟩
      simp [← hk]
    · rw [findId, if_neg hk] at h
      obtain ⟨pre, post, hm, hpre, hrem⟩ := ih h
      refine ⟨hd :: pre, post, by simp [hm], ?_, by simp [removeId, hk, hrem]⟩
      intro e he
      rcases List.mem_cons.mp he with rfl | he2
      · exact hk
      · exact hpre e he2

theorem findId_eq_none {m : List (Int × Bool × Rat)} {oid : Int} :
    findId m oid = none ↔ ∀ e ∈ m, e.1 ≠ oid := by
  induction m with
  | nil => simp [findId]
  | cons hd rest ih =>
    by_cases hk : hd.1 = oid
    · simp [findId, hk]
    · simp [findId, hk, ih]

theorem findId_of_mem_nodup {m : List (Int × Bool × Rat)} {oid : Int} {v : Bool × Rat}
    (hnd : (m.map (fun e => e.1)).Nodup) (hmem : (oid, v) ∈ m) :
    findId m oid = some v := by
  induction m with
  | nil => cases hmem
  | cons hd rest ih =>
    rw [List.map_cons, List.nodup_cons] at hnd
    rcases List.mem_cons.mp hmem with heq | hmem2
    · rw [findId, if_pos (by rw [← heq])]
      rw [← heq]
    · have hne : hd.1 ≠ oid := by
        intro hcontra
        exact hnd.1 (hcontra ▸ List.mem_map_of_mem (fun e => e.1) hmem2)
      rw [findId, if_neg hne]
      exact ih hnd.2 hmem2

theorem removeId_of_not_mem {m : List (Int × Bool × Rat)} {oid : Int}
    (h : ∀ e ∈ m, e.1 ≠ oid) : removeId m oid = m := by
  induction m with
  | nil => rfl
  | cons hd rest ih =>
    rw [removeId, if_neg (h hd (List.mem_cons_self hd rest))]
    rw [ih (fun e he => h e (List.mem_cons_of_mem hd he))]

theorem removeFirstById_decomp {os : List Order} {oid : Int} {o : Order} {rest : List Order}
    (h : removeFirstById os oid = some (o, rest)) :
    o.id = oid ∧ ∃ pre post, os = pre ++ o :: post ∧ (∀ x ∈ pre, x.id ≠ oid) ∧
      rest = pre ++ post := by
  induction os generalizing rest with
  | nil => simp [removeFirstById] at h
  | cons hd tl ih =>
    by_cases hk : hd.id = oid
    · rw [removeFirstById, if_pos hk] at h
      obtain ⟨rfl, rfl⟩ : hd = o ∧ tl = rest := by
        constructor <;> [skip; skip] <;> injection h with h2 <;>
          [exact congrArg Prod.fst h2; exact congrArg Prod.snd h2]
      exact ⟨hk, [], tl, rfl, by simp, rfl⟩
    · rw [removeFirstById, if_neg hk] at h
      cases hrec : removeFirstById tl oid with
      | none => rw [hrec] at h; cases h
      | some pr =>
        obtain ⟨found, rest2⟩ := pr
        rw [hrec] at h
        obtain ⟨rfl, rfl⟩ : found = o ∧ hd :: rest2 = rest := by
          constructor <;> injection h with h2 <;>
            [exact congrArg Prod.fst h2; exact congrArg Prod.snd h2]
        obtain ⟨hoid, pre, post, htl, hpre, hrest⟩ := ih hrec
        refine ⟨hoid, hd :: pre, post, by simp [htl], ?_, by simp [hrest]⟩
        intro x hx
        rcases List.mem_cons.mp hx with rfl | hx2
        · exact hk
        · exact hpre x hx2

theorem removeFirstById_eq_none {os : List Order} {oid : Int} :
    removeFirstById os oid = none ↔ ∀ x ∈ os, x.id ≠ oid := by
  induction os with
  | nil => simp [removeFirstById]
  | cons hd tl ih =>
    by_cases hk : hd.id = oid
    · simp [removeFirstById, hk]
    · rw [removeFirstById, if_neg hk]
      cases hrec : removeFirstById tl oid with
      | none =>
        simp only [List.mem_cons]
        constructor
        · intro _ x hx
          rcases hx with rfl | hx2
          · exact hk
          · exact ih.mp hrec x hx2
        · intro _; trivial
      | some pr =>
        obtain ⟨f, r2⟩ := pr
        simp only [List.mem_cons]
        constructor
        · intro hcontra; cases hcontra
        · intro hall
          have hnone : removeFirstById tl oid = none :=
            ih.mpr (fun x hx => hall x (Or.inr hx))
          rw [hnone] at hrec; cases hrec

theorem removeFirstById_isSome {os : List Order} {oid : Int} {o : Order}
    (hmem : o ∈ os) (hid : o.id = oid) :
    ∃ found rest, removeFirstById os oid = some (found, rest) := by
  cases hfind : removeFirstById os oid with
  | some pr => exact ⟨pr.1, pr.2, rfl⟩
  | none => exact absurd hid (removeFirstById_eq_none.mp hfind o hmem)

theorem removeFirstById_of_mem_nodup {os : List Order} {oid : Int} {o : Order}
    (hnd : (os.map (fun x => x.id)).Nodup) (hmem : o ∈ os) (hid : o.id = oid) :
    ∃ pre post, os = pre ++ o :: post ∧ removeFirstById os oid = some (o, pre ++ post) := by
  induction os with
  | nil => cases hmem
  | cons hd tl ih =>
    rw [List.map_cons, List.nodup_cons] at hnd
    rcases List.mem_cons.mp hmem with rfl | hmem2
    · exact ⟨[], tl, rfl, by rw [removeFirstById, if_pos hid]; rfl⟩
    · have hne : hd.id ≠ oid := by
        intro hcontra
        exact hnd.1 (hcontra ▸ hid ▸ List.mem_map_of_mem (fun x => x.id) hmem2)
      obtain ⟨pre, post, htl, hfind⟩ := ih hnd.2 hmem2
      exact ⟨hd :: pre, post, by simp [htl], by rw [removeFirstById, if_neg hne, hfind]; rfl⟩

/-
Aggregates over a side and best-price selection facts.
-/

def queueOrders (ls : List PriceLevel) : List Order :=
  match ls with
  | [] => []
  | l :: rest => l.orders ++ queueOrders rest

theorem queueOrders_append (xs ys : List PriceLevel) :
    queueOrders (xs ++ ys) = queueOrders xs ++ queueOrders ys := by
  induction xs with
  | nil => rfl
  | cons hd tl ih => simp [queueOrders, ih]

theorem mem_queueOrders {ls : List PriceLevel} {o : Order} :
    o ∈ queueOrders ls ↔ ∃ l ∈ ls, o ∈ l.orders := by
  induction ls with
  | nil => simp [queueOrders]
  | cons hd tl ih => simp [queueOrders, ih]

def allOrders (b : OrderBook) : List Order := queueOrders b.bids ++ queueOrders b.asks

theorem foldMaxPrice_le_acc {ls : List PriceLevel} {acc : Rat} :
    acc ≤ foldMaxPrice ls acc := by
  induction ls generalizing acc with
  | nil => exact le_refl _
  | cons hd tl ih => exact le_trans (le_max_left acc hd.price) ih

theorem foldMaxPrice_mem_le {ls : List PriceLevel} {acc : Rat} {l : PriceLevel}
    (h : l ∈ ls) : l.price ≤ foldMaxPrice ls acc := by
  induction ls generalizing acc with
  | nil => cases h
  | cons hd tl ih =>
    rcases List.mem_cons.mp h with rfl | h2
    · exact le_trans (le_max_right acc l.price) foldMaxPrice_le_acc
    · exact ih h2

theorem foldMaxPrice_attained {ls : List PriceLevel} {acc : Rat} :
    foldMaxPrice ls acc = acc ∨ ∃ l ∈ ls, foldMaxPrice ls acc = l.price := by
  induction ls generalizing acc with
  | nil => exact Or.inl rfl
  | cons hd tl ih =>
    rcases @ih (max acc hd.price) with h | ⟨l, hl, hlp⟩
    · rw [foldMaxPrice, h]
      rcases max_choice acc hd.price with hm | hm
      · exact Or.inl hm
      · exact Or.inr ⟨hd, List.mem_cons_self hd tl, hm⟩
    · exact Or.inr ⟨l, List.mem_cons_of_mem hd hl, hlp⟩

theorem foldMinPrice_acc_le {ls : List PriceLevel} {acc : Rat} :
    foldMinPrice ls acc ≤ acc := by
  induction ls generalizing acc with
  | nil => exact le_refl _
  | cons hd tl ih => exact le_trans ih (min_le_left acc hd.price)

theorem foldMinPrice_le_mem {ls : List PriceLevel} {acc : Rat} {l : PriceLevel}
    (h : l ∈ ls) : foldMinPrice ls acc ≤ l.price := by
  induction ls generalizing acc with
  | nil => cases h
  | cons hd tl ih =>
    rcases List.mem_cons.mp h with rfl | h2
    · show foldMinPrice tl (min acc l.price) ≤ l.price
      exact le_trans foldMinPrice_acc_le (min_le_right acc l.price)
    · exact ih h2

theorem foldMinPrice_attained {ls : List PriceLevel} {acc : Rat} :
    foldMinPrice ls acc = acc ∨ ∃ l ∈ ls, foldMinPrice ls acc = l.price := by
  induction ls generalizing acc with
  | nil => exact Or.inl rfl
  | cons hd tl ih =>
    rcases @ih (min acc hd.price) with h | ⟨l, hl, hlp⟩
    · rw [foldMinPrice, h]
      rcases min_choice acc hd.price with hm | hm
      · exact Or.inl hm
      · exact Or.inr ⟨hd, List.mem_cons_self hd tl, hm⟩
    · exact Or.inr ⟨l, List.mem_cons_of_mem hd hl, hlp⟩

theorem get_best_bid_attained {b : OrderBook} (h : b.bids ≠ []) :
    ∃ l ∈ b.bids, l.price = get_best_bid b := by
  cases hb : b.bids with
  | nil => exact absurd hb h
  | cons hd tl =>
    rw [get_best_bid, hb]
    rcases @foldMaxPrice_attained tl hd.price with heq | ⟨l, hl, hlp⟩
    · exact ⟨hd, List.mem_cons_self hd tl, heq.symm⟩
    · exact ⟨l, List.mem_cons_of_mem hd hl, hlp.symm⟩

theorem get_best_bid_ge {b : OrderBook} {l : PriceLevel} (h : l ∈ b.bids) :
    l.price ≤ get_best_bid b := by
  cases hb : b.bids with
  | nil => rw [hb] at h; cases h
  | cons hd tl =>
    rw [get_best_bid, hb]
    rw [hb] at h
    rcases List.mem_cons.mp h with rfl | h2
    · exact foldMaxPrice_le_acc
    · exact foldMaxPrice_mem_le h2

theorem get_best_ask_attained {b : OrderBook} (h : b.asks ≠ []) :
    ∃ l ∈ b.asks, l.price = get_best_ask b := by
  cases hb : b.asks with
  | nil => exact absurd hb h
  | cons hd tl =>
    rw [get_best_ask, hb]
    rcases @foldMinPrice_attained tl hd.price with heq | ⟨l, hl, hlp⟩
    · exact ⟨hd, List.mem_cons_self hd tl, heq.symm⟩
    · exact ⟨l, List.mem_cons_of_mem hd hl, hlp.symm⟩

theorem get_best_ask_le {b : OrderBook} {l : PriceLevel} (h : l ∈ b.asks) :
    get_best_ask b ≤ l.price := by
  cases hb : b.asks with
  | nil => rw [hb] at h; cases h
  | cons hd tl =>
    rw [get_best_ask, hb]
    rw [hb] at h
    rcases List.mem_cons.mp h with rfl | h2
    · exact foldMinPrice_acc_le
    · exact foldMinPrice_le_mem h2

/-
The joint book invariant of §3 of the specification.
-/

/-- Spec invariants of a single price level on side `buy`. -/
def levelWF (buy : Bool) (l : PriceLevel) : Prop :=
  l.orders ≠ [] ∧ 0 < l.price ∧
  l.total_quantity = (l.orders.map (fun o => o.quantity)).sum ∧
  ∀ o ∈ l.orders, o.price = l.price ∧ o.is_buy = buy ∧ 0 < o.quantity

/-- Spec invariants of one side of the book. -/
def sideWF (buy : Bool) (ls : List PriceLevel) : Prop :=
  (∀ l ∈ ls, levelWF buy l) ∧ (ls.map (fun l => l.price)).Nodup

/-- The joint state invariant of the order book. -/
def OrderBook.WF (b : OrderBook) : Prop :=
  sideWF true b.bids ∧ sideWF false b.asks ∧
  0 ≤ b.current_order_id ∧
  (b.order_id_map.map (fun e => e.1)).Nodup ∧
  ((allOrders b).map (fun o => o.id)).Nodup ∧
  (∀ e ∈ b.order_id_map, ∃ o ∈ allOrders b, o.id = e.1 ∧ o.is_buy = e.2.1 ∧ o.price = e.2.2) ∧
  (∀ o ∈ allOrders b, (o.id, o.is_buy, o.price) ∈ b.order_id_map) ∧
  (∀ e ∈ b.order_id_map, 1 ≤ e.1 ∧ e.1 ≤ b.current_order_id)

instance (buy : Bool) (l : PriceLevel) : Decidable (levelWF buy l) := by
  unfold levelWF; exact inferInstance

instance (buy : Bool) (ls : List PriceLevel) : Decidable (sideWF buy ls) := by
  unfold sideWF; exact inferInstance

instance (b : OrderBook) : Decidable b.WF := by
  unfold OrderBook.WF; exact inferInstance

/-
Structural facts about one side shrinking during a fill or cleanup.
-/

theorem removeLevel_sublist (ls : List PriceLevel) (p : Rat) :
    List.Sublist (removeLevel ls p) ls := by
  induction ls with
  | nil => exact List.Sublist.refl []
  | cons hd tl ih =>
    rw [removeLevel]
    by_cases hp : hd.price = p
    · rw [if_pos hp]; exact List.sublist_cons_self hd tl
    · rw [if_neg hp]; exact List.Sublist.cons₂ hd ih

theorem removeId_sublist (m : List (Int × Bool × Rat)) (k : Int) :
    List.Sublist (removeId m k) m := by
  induction m with
  | nil => exact List.Sublist.refl []
  | cons hd tl ih =>
    rw [removeId]
    by_cases hk : hd.1 = k
    · rw [if_pos hk]; exact List.sublist_cons_self hd tl
    · rw [if_neg hk]; exact List.Sublist.cons₂ hd ih

theorem mem_removeId_of_ne {m : List (Int × Bool × Rat)} {k : Int}
    {e : Int × Bool × Rat} (hmem : e ∈ m) (hne : e.1 ≠ k) : e ∈ removeId m k := by
  induction m with
  | nil => cases hmem
  | cons hd tl ih =>
    rw [removeId]
    by_cases hk : hd.1 = k
    · rw [if_pos hk]
      rcases List.mem_cons.mp hmem with rfl | h2
      · exact absurd hk hne
      · exact h2
    · rw [if_neg hk]
      rcases List.mem_cons.mp hmem with rfl | h2
      · exact List.mem_cons_self e _
      · exact List.mem_cons_of_mem hd (ih h2)

theorem not_key_mem_removeId {m : List (Int × Bool × Rat)} {k : Int}
    (hnd : (m.map (fun e => e.1)).Nodup) {e : Int × Bool × Rat}
    (hmem : e ∈ removeId m k) : e ∈ m ∧ e.1 ≠ k := by
  induction m with
  | nil => cases hmem
  | cons hd tl ih =>
    rw [List.map_cons, List.nodup_cons] at hnd
    rw [removeId] at hmem
    by_cases hk : hd.1 = k
    · rw [if_pos hk] at hmem
      refine ⟨List.mem_cons_of_mem hd hmem, ?_⟩
      intro hek
      exact hnd.1 (hk ▸ hek ▸ List.mem_map_of_mem (fun x => x.1) hmem)
    · rw [if_neg hk] at hmem
      rcases List.mem_cons.mp hmem with rfl | h2
      · exact ⟨List.mem_cons_self e _, hk⟩
      · obtain ⟨h3, h4⟩ := ih hnd.2 h2
        exact ⟨List.mem_cons_of_mem hd h3, h4⟩

theorem sideOrderCount_append (xs ys : List PriceLevel) :
    sideOrderCount (xs ++ ys) = sideOrderCount xs + sideOrderCount ys := by
  unfold sideOrderCount
  rw [List.map_append, List.sum_append]

theorem sideOrderCount_cons (l : PriceLevel) (ls : List PriceLevel) :
    sideOrderCount (l :: ls) = l.orders.length + sideOrderCount ls := by
  unfold sideOrderCount
  rw [List.map_cons, List.sum_cons]

/-- Measure bookkeeping for `shrinkSide`. -/
theorem shrinkSide_measure {ls : List PriceLevel} {p : Rat} {l : PriceLevel}
    (hfl : findLevel ls p = some l) (nl : PriceLevel) :
    sideOrderCount (shrinkSide ls p nl) + (shrinkSide ls p nl).length + l.orders.length ≤
      sideOrderCount ls + ls.length + nl.orders.length := by
  obtain ⟨-, pre, post, hls, -, hrem, hupd⟩ := findLevel_decomp hfl
  unfold shrinkSide
  by_cases hnil : nl.orders = []
  · rw [if_pos hnil, hrem, hls]
    rw [sideOrderCount_append, sideOrderCount_append, sideOrderCount_cons,
      List.length_append, List.length_append, List.length_cons]
    omega
  · rw [if_neg hnil, hupd nl, hls]
    rw [sideOrderCount_append, sideOrderCount_append, sideOrderCount_cons,
      sideOrderCount_cons, List.length_append, List.length_append, List.length_cons,
      List.length_cons]
    omega

/-- The queued orders of a shrunk side, positionally. -/
theorem shrinkSide_queueOrders {ls : List PriceLevel} {p : Rat} {l : PriceLevel}
    (hfl : findLevel ls p = some l) (nl : PriceLevel) :
    ∃ pre post, ls = pre ++ l :: post ∧
      queueOrders (shrinkSide ls p nl) =
        queueOrders pre ++ nl.orders ++ queueOrders post := by
  obtain ⟨-, pre, post, hls, -, hrem, hupd⟩ := findLevel_decomp hfl
  refine ⟨pre, post, hls, ?_⟩
  unfold shrinkSide
  by_cases hnil : nl.orders = []
  · rw [if_pos hnil, hrem, queueOrders_append, hnil]
    simp
  · rw [if_neg hnil, hupd nl, queueOrders_append]
    show queueOrders pre ++ (nl.orders ++ queueOrders post) = _
    rw [List.append_assoc]

theorem fillOrders_length_le (o : Order) (rest : List Order) (t : Int) :
    (fillOrders o rest t).length ≤ rest.length + 1 := by
  unfold fillOrders
  by_cases h : o.quantity - t = 0
  · rw [if_pos h]; omega
  · rw [if_neg h, List.length_cons]

theorem fillOrders_length_of_filled {o : Order} {rest : List Order} {t : Int}
    (h : o.quantity - t = 0) : (fillOrders o rest t).length = rest.length := by
  unfold fillOrders; rw [if_pos h]

theorem fillOrders_sum (o : Order) (rest : List Order) (t : Int) :
    ((fillOrders o rest t).map (fun x => x.quantity)).sum =
      o.quantity - t + (rest.map (fun x => x.quantity)).sum := by
  unfold fillOrders
  by_cases h : o.quantity - t = 0
  · rw [if_pos h, h, zero_add]
  · rw [if_neg h, List.map_cons, List.sum_cons]

theorem fillOrders_ids_sublist (o : Order) (rest : List Order) (t : Int) :
    List.Sublist ((fillOrders o rest t).map (fun x => x.id))
      ((o :: rest).map (fun x => x.id)) := by
  unfold fillOrders
  by_cases h : o.quantity - t = 0
  · rw [if_pos h, List.map_cons]
    exact List.sublist_cons_self o.id (rest.map (fun x => x.id))
  · rw [if_neg h, List.map_cons, List.map_cons]

theorem mem_fillOrders {o : Order} {rest : List Order} {t : Int} {x : Order}
    (h : x ∈ fillOrders o rest t) :
    x ∈ rest ∨ (x = { o with quantity := o.quantity - t } ∧ o.quantity - t ≠ 0) := by
  unfold fillOrders at h
  by_cases hz : o.quantity - t = 0
  · rw [if_pos hz] at h; exact Or.inl h
  · rw [if_neg hz] at h
    rcases List.mem_cons.mp h with rfl | h2
    · exact Or.inr ⟨rfl, hz⟩
    · exact Or.inl h2

theorem fillMap_sublist (m : List (Int × Bool × Rat)) (o : Order) (t : Int) :
    List.Sublist (fillMap m o t) m := by
  unfold fillMap
  by_cases h : o.quantity - t = 0
  · rw [if_pos h]; exact removeId_sublist m o.id
  · rw [if_neg h]

theorem mem_fillMap_of_ne {m : List (Int × Bool × Rat)} {o : Order} {t : Int}
    {e : Int × Bool × Rat} (hmem : e ∈ m) (hne : e.1 ≠ o.id) : e ∈ fillMap m o t := by
  unfold fillMap
  by_cases h : o.quantity - t = 0
  · rw [if_pos h]; exact mem_removeId_of_ne hmem hne
  · rw [if_neg h]; exact hmem

theorem mem_fillMap_cases {m : List (Int × Bool × Rat)} {o : Order} {t : Int}
    (hnd : (m.map (fun e => e.1)).Nodup) {e : Int × Bool × Rat}
    (hmem : e ∈ fillMap m o t) : e ∈ m ∧ (o.quantity - t = 0 → e.1 ≠ o.id) := by
  unfold fillMap at hmem
  by_cases h : o.quantity - t = 0
  · rw [if_pos h] at hmem
    obtain ⟨h1, h2⟩ := not_key_mem_removeId hnd hmem
    exact ⟨h1, fun _ => h2⟩
  · rw [if_neg h] at hmem
    exact ⟨hmem, fun hc => absurd hc h⟩

/-
Characterization of one loop iteration.
-/

theorem execStep_of_guard {b : OrderBook}
    (h : get_best_bid b = -1 ∨ get_best_ask b = -1 ∨ get_best_bid b < get_best_ask b) :
    execStep b = none := by
  unfold execStep
  rw [if_pos h]

theorem bids_ne_nil_of_guard_fails {b : OrderBook} (h : ¬ get_best_bid b = -1) :
    b.bids ≠ [] := by
  intro hnil
  rw [get_best_bid, hnil] at h
  exact h rfl

theorem asks_ne_nil_of_guard_fails {b : OrderBook} (h : ¬ get_best_ask b = -1) :
    b.asks ≠ [] := by
  intro hnil
  rw [get_best_ask, hnil] at h
  exact h rfl

theorem execStep_char {b : OrderBook}
    (h : ¬ (get_best_bid b = -1 ∨ get_best_ask b = -1 ∨ get_best_bid b < get_best_ask b)) :
    ∃ bl al, findLevel b.bids (get_best_bid b) = some bl ∧
      findLevel b.asks (get_best_ask b) = some al ∧
      (((bl.orders = [] ∨ al.orders = []) ∧
          execStep b = some (none, cleanupStep b (get_best_bid b) (get_best_ask b) bl al)) ∨
        (∃ bo brest ao arest, bl.orders = bo :: brest ∧ al.orders = ao :: arest ∧
          execStep b = some
            (some (tradeFill b (get_best_bid b) (get_best_ask b) bl al bo brest ao arest).1,
              (tradeFill b (get_best_bid b) (get_best_ask b) bl al bo brest ao arest).2))) := by
  have hbb : ¬ get_best_bid b = -1 := fun hc => h (Or.inl hc)
  have hba : ¬ get_best_ask b = -1 := fun hc => h (Or.inr (Or.inl hc))
  obtain ⟨lb, hlb, hlbp⟩ := get_best_bid_attained (bids_ne_nil_of_guard_fails hbb)
  obtain ⟨la, hla, hlap⟩ := get_best_ask_attained (asks_ne_nil_of_guard_fails hba)
  obtain ⟨bl, hbl⟩ := findLevel_isSome hlb hlbp
  obtain ⟨al, hal⟩ := findLevel_isSome hla hlap
  refine ⟨bl, al, hbl, hal, ?_⟩
  have hstep : execStep b =
      match bl.orders, al.orders with
      | bo :: brest, ao :: arest =>
        some (some (tradeFill b (get_best_bid b) (get_best_ask b) bl al bo brest ao arest).1,
          (tradeFill b (get_best_bid b) (get_best_ask b) bl al bo brest ao arest).2)
      | _, _ => some (none, cleanupStep b (get_best_bid b) (get_best_ask b) bl al) := by
    unfold execStep
    rw [if_neg h, hbl, hal]
  cases hbo : bl.orders with
  | nil =>
    left
    refine ⟨Or.inl rfl, ?_⟩
    rw [hstep, hbo]
  | cons bo brest =>
    cases hao : al.orders with
    | nil =>
      left
      refine ⟨Or.inr rfl, ?_⟩
      rw [hstep, hbo, hao]
    | cons ao arest =>
      right
      refine ⟨bo, brest, ao, arest, rfl, rfl, ?_⟩
      rw [hstep, hbo, hao]

theorem execStep_eq_none_iff {b : OrderBook} :
    execStep b = none ↔
      (get_best_bid b = -1 ∨ get_best_ask b = -1 ∨ get_best_bid b < get_best_ask b) := by
  constructor
  · intro hnone
    by_contra hg
    obtain ⟨bl, al, -, -, hcases⟩ := execStep_char hg
    rcases hcases with ⟨h1, hstep⟩ | ⟨bo, brest, ao, arest, h1, h2, hstep⟩ <;>
      rw [hstep] at hnone <;> cases hnone
  · exact execStep_of_guard

/-
Termination: every loop iteration strictly decreases `bookMeasure`.
-/

theorem removeLevel_empty_count {ls : List PriceLevel} {p : Rat} {l : PriceLevel}
    (hfl : findLevel ls p = some l) (hnil : l.orders = []) :
    sideOrderCount (removeLevel ls p) = sideOrderCount ls ∧
      (removeLevel ls p).length + 1 = ls.length := by
  obtain ⟨-, pre, post, hls, -, hrem, -⟩ := findLevel_decomp hfl
  constructor
  · rw [hrem, hls, sideOrderCount_append, sideOrderCount_append, sideOrderCount_cons, hnil]
    simp
  · rw [hrem, hls, List.length_append, List.length_append, List.length_cons]
    omega

theorem cleanupStep_measure {b : OrderBook} {bb ba : Rat} {bl al : PriceLevel}
    (hbl : findLevel b.bids bb = some bl) (hal : findLevel b.asks ba = some al)
    (hempty : bl.orders = [] ∨ al.orders = []) :
    bookMeasure (cleanupStep b bb ba bl al) < bookMeasure b := by
  unfold cleanupStep bookMeasure
  dsimp only
  by_cases hb : bl.orders = []
  · obtain ⟨hc, hl⟩ := removeLevel_empty_count hbl hb
    rw [if_pos hb]
    by_cases ha : al.orders = []
    · obtain ⟨hc2, hl2⟩ := removeLevel_empty_count hal ha
      rw [if_pos ha]
      omega
    · rw [if_neg ha]
      omega
  · have ha : al.orders = [] := hempty.resolve_left hb
    obtain ⟨hc2, hl2⟩ := removeLevel_empty_count hal ha
    rw [if_neg hb, if_pos ha]
    omega

theorem tradeFill_measure {b : OrderBook} {bb ba : Rat} {bl al : PriceLevel}
    {bo : Order} {brest : List Order} {ao : Order} {arest : List Order}
    (hbl : findLevel b.bids bb = some bl) (hal : findLevel b.asks ba = some al)
    (hbo : bl.orders = bo :: brest) (hao : al.orders = ao :: arest) :
    bookMeasure (tradeFill b bb ba bl al bo brest ao arest).2 < bookMeasure b := by
  have h1 := shrinkSide_measure hbl
    { bl with orders := fillOrders bo brest (min bo.quantity ao.quantity),
              total_quantity := bl.total_quantity - min bo.quantity ao.quantity }
  have h2 := shrinkSide_measure hal
    { al with orders := fillOrders ao arest (min bo.quantity ao.quantity),
              total_quantity := al.total_quantity - min bo.quantity ao.quantity }
  have hfill : bo.quantity - min bo.quantity ao.quantity = 0 ∨
      ao.quantity - min bo.quantity ao.quantity = 0 := by
    rcases min_choice bo.quantity ao.quantity with h | h <;> [left; right] <;> omega
  have hblen : bl.orders.length = brest.length + 1 := by rw [hbo]; rfl
  have halen : al.orders.length = arest.length + 1 := by rw [hao]; rfl
  have hb1 := fillOrders_length_le bo brest (min bo.quantity ao.quantity)
  have ha1 := fillOrders_length_le ao arest (min bo.quantity ao.quantity)
  have hstrict : (fillOrders bo brest (min bo.quantity ao.quantity)).length +
      (fillOrders ao arest (min bo.quantity ao.quantity)).length <
      bl.orders.length + al.orders.length := by
    rcases hfill with h | h
    · have := @fillOrders_length_of_filled bo brest (min bo.quantity ao.quantity) h
      omega
    · have := @fillOrders_length_of_filled ao arest (min bo.quantity ao.quantity) h
      omega
  show bookMeasure
      { b with
          bids := shrinkSide b.bids bb _, asks := shrinkSide b.asks ba _,
          order_id_map := _ } < bookMeasure b
  unfold bookMeasure at h1 h2 ⊢
  dsimp only at h1 h2 ⊢
  omega

theorem execStep_measure {b : OrderBook} {t? : Option TradeRecord} {b2 : OrderBook}
    (h : execStep b = some (t?, b2)) : bookMeasure b2 < bookMeasure b := by
  by_cases hg : get_best_bid b = -1 ∨ get_best_ask b = -1 ∨ get_best_bid b < get_best_ask b
  · rw [execStep_of_guard hg] at h; cases h
  · obtain ⟨bl, al, hbl, hal, hcase⟩ := execStep_char hg
    rcases hcase with ⟨hempty, hstep⟩ | ⟨bo, brest, ao, arest, hbo, hao, hstep⟩
    · rw [hstep] at h
      injection h with h2
      have hb2 : b2 = cleanupStep b (get_best_bid b) (get_best_ask b) bl al :=
        (congrArg Prod.snd h2).symm
      rw [hb2]
      exact cleanupStep_measure hbl hal hempty
    · rw [hstep] at h
      injection h with h2
      have hb2 : b2 = (tradeFill b (get_best_bid b) (get_best_ask b) bl al bo brest ao arest).2 :=
        (congrArg Prod.snd h2).symm
      rw [hb2]
      exact tradeFill_measure hbl hal hbo hao

theorem execLoopN_quiescent :
    ∀ (fuel : Nat) (b : OrderBook), bookMeasure b < fuel →
      execStep (execLoopN fuel b).2 = none := by
  intro fuel
  induction fuel with
  | zero => intro b h; exact absurd h (Nat.not_lt_zero _)
  | succ n ih =>
    intro b h
    rw [execLoopN]
    cases hstep : execStep b with
    | none => exact hstep
    | some pr =>
      obtain ⟨t?, b2⟩ := pr
      have hlt : bookMeasure b2 < n :=
        Nat.lt_of_lt_of_le (execStep_measure hstep) (Nat.lt_succ_iff.mp h)
      cases t? with
      | none => exact ih b2 hlt
      | some t => exact ih b2 hlt

/-- The final book of `execute_trades` is quiescent: no further iteration fires. -/
theorem execute_trades_quiescent (b : OrderBook) :
    execStep (b.execute_trades).2 = none :=
  execLoopN_quiescent (bookMeasure b + 1) b (Nat.lt_succ_self _)

/-
Helpers for invariant preservation.
-/

theorem mem_fillOrders_of_mem_rest {o : Order} {rest : List Order} {t : Int} {x : Order}
    (h : x ∈ rest) : x ∈ fillOrders o rest t := by
  unfold fillOrders
  by_cases hz : o.quantity - t = 0
  · rw [if_pos hz]; exact h
  · rw [if_neg hz]; exact List.mem_cons_of_mem _ h

theorem head_mem_fillOrders {o : Order} {rest : List Order} {t : Int}
    (h : o.quantity - t ≠ 0) :
    { o with quantity := o.quantity - t } ∈ fillOrders o rest t := by
  unfold fillOrders
  rw [if_neg h]
  exact List.mem_cons_self _ _

theorem nodup_mid_facts {A B C : List Int} {v : Int} (h : (A ++ (v :: B) ++ C).Nodup) :
    v ∉ A ∧ v ∉ B ∧ v ∉ C := by
  obtain ⟨h1, h2, h3⟩ := List.nodup_append.mp h
  obtain ⟨h4, h5, h6⟩ := List.nodup_append.mp h1
  refine ⟨?_, (List.nodup_cons.mp h5).1, ?_⟩
  · intro hvA
    exact h6 hvA (List.mem_cons_self v B)
  · intro hvC
    exact h3 (List.mem_append_right A (List.mem_cons_self v B)) hvC

theorem queue_fields {buy : Bool} {ls : List PriceLevel} {x : Order}
    (hside : sideWF buy ls) (h : x ∈ queueOrders ls) :
    x.is_buy = buy ∧ 0 < x.quantity := by
  obtain ⟨l, hl, hx⟩ := mem_queueOrders.mp h
  obtain ⟨-, -, -, hfield⟩ := hside.1 l hl
  exact ⟨(hfield x hx).2.1, (hfield x hx).2.2⟩

theorem allOrders_id_inj {b : OrderBook} (hwf : b.WF) {x y : Order}
    (hx : x ∈ allOrders b) (hy : y ∈ allOrders b) (hid : x.id = y.id) : x = y :=
  List.inj_on_of_nodup_map hwf.2.2.2.2.1 hx hy hid

theorem cross_id_ne {b : OrderBook} (hwf : b.WF) {x y : Order}
    (hx : x ∈ queueOrders b.bids) (hy : y ∈ queueOrders b.asks) : x.id ≠ y.id := by
  intro h
  have hxy := allOrders_id_inj hwf (List.mem_append_left _ hx) (List.mem_append_right _ hy) h
  have h1 := (queue_fields hwf.1 hx).1
  have h2 := (queue_fields hwf.2.1 hy).1
  rw [hxy, h2] at h1
  cases h1

theorem queueOrders_cons (l : PriceLevel) (ls : List PriceLevel) :
    queueOrders (l :: ls) = l.orders ++ queueOrders ls := rfl

theorem nodup_split2 {α : Type} {A D : List α} {v : α} (h : (A ++ v :: D).Nodup) :
    v ∉ A ∧ v ∉ D := by
  obtain ⟨h1, h2, h3⟩ := List.nodup_append.mp h
  refine ⟨fun hvA => h3 hvA (List.mem_cons_self v D), (List.nodup_cons.mp h2).1⟩

theorem mem_fillMap_keep {m : List (Int × Bool × Rat)} {o : Order} {t : Int}
    {e : Int × Bool × Rat} (hmem : e ∈ m) (h : o.quantity - t = 0 → e.1 ≠ o.id) :
    e ∈ fillMap m o t := by
  unfold fillMap
  by_cases hz : o.quantity - t = 0
  · rw [if_pos hz]; exact mem_removeId_of_ne hmem (h hz)
  · rw [if_neg hz]; exact hmem

/-- A level keeps its invariant after its front order is filled by `t`. -/
theorem fill_levelWF {buy : Bool} {l : PriceLevel} {o : Order} {rest : List Order} {t : Int}
    (hlw : levelWF buy l) (hord : l.orders = o :: rest) (ht : 0 ≤ o.quantity - t)
    (hne : fillOrders o rest t ≠ []) :
    levelWF buy
      { l with orders := fillOrders o rest t, total_quantity := l.total_quantity - t } := by
  obtain ⟨-, hpos, hsum, hfield⟩ := hlw
  refine ⟨hne, hpos, ?_, ?_⟩
  · show l.total_quantity - t = _
    rw [fillOrders_sum]
    rw [hord, List.map_cons, List.sum_cons] at hsum
    omega
  · intro x hx
    rcases mem_fillOrders hx with hx1 | ⟨rfl, hnz⟩
    · exact hfield x (hord ▸ List.mem_cons_of_mem o hx1)
    · have hb := hfield o (hord ▸ List.mem_cons_self o rest)
      exact ⟨hb.1, hb.2.1, lt_of_le_of_ne ht (Ne.symm hnz)⟩

/-- One side keeps its invariant when the level at `p` shrinks to `nl`. -/
theorem shrinkSide_sideWF {buy : Bool} {ls : List PriceLevel} {p : Rat} {l nl : PriceLevel}
    (hside : sideWF buy ls) (hfl : findLevel ls p = some l)
    (hnlp : nl.price = l.price)
    (hwfnl : nl.orders ≠ [] → levelWF buy nl) :
    sideWF buy (shrinkSide ls p nl) := by
  obtain ⟨-, pre, post, hls, -, hrem, hupd⟩ := findLevel_decomp hfl
  unfold shrinkSide
  by_cases hnil : nl.orders = []
  · rw [if_pos hnil]
    constructor
    · intro x hx
      exact hside.1 x (List.Sublist.subset (removeLevel_sublist ls p) hx)
    · exact List.Nodup.sublist (List.Sublist.map _ (removeLevel_sublist ls p)) hside.2
  · rw [if_neg hnil, hupd nl]
    have hside2 := hside
    rw [hls] at hside2
    constructor
    · intro x hx
      rcases List.mem_append.mp hx with hx1 | hx2
      · exact hside2.1 x (List.mem_append_left _ hx1)
      · rcases List.mem_cons.mp hx2 with rfl | hx3
        · exact hwfnl hnil
        · exact hside2.1 x (List.mem_append_right _ (List.mem_cons_of_mem l hx3))
    · have h2 := hside2.2
      rw [List.map_append, List.map_cons] at h2 ⊢
      rw [hnlp]
      exact h2

/-- A trade iteration preserves the joint book invariant. -/
theorem tradeFill_wf {b : OrderBook} {bb ba : Rat} {bl al : PriceLevel}
    {bo : Order} {brest : List Order} {ao : Order} {arest : List Order}
    (hwf : b.WF)
    (hbl : findLevel b.bids bb = some bl) (hal : findLevel b.asks ba = some al)
    (hbo : bl.orders = bo :: brest) (hao : al.orders = ao :: arest) :
    ((tradeFill b bb ba bl al bo brest ao arest).2).WF := by
  have hbside := hwf.1
  have haside := hwf.2.1
  have hcur := hwf.2.2.1
  have hknd := hwf.2.2.2.1
  have hind := hwf.2.2.2.2.1
  have hent := hwf.2.2.2.2.2.1
  have hordm := hwf.2.2.2.2.2.2.1
  have hbound := hwf.2.2.2.2.2.2.2
  have htb : min bo.quantity ao.quantity ≤ bo.quantity := min_le_left _ _
  have hta : min bo.quantity ao.quantity ≤ ao.quantity := min_le_right _ _
  have hb2 : (tradeFill b bb ba bl al bo brest ao arest).2 =
      { bids := shrinkSide b.bids bb
          { bl with orders := fillOrders bo brest (min bo.quantity ao.quantity),
                    total_quantity := bl.total_quantity - min bo.quantity ao.quantity },
        asks := shrinkSide b.asks ba
          { al with orders := fillOrders ao arest (min bo.quantity ao.quantity),
                    total_quantity := al.total_quantity - min bo.quantity ao.quantity },
        order_id_map :=
          fillMap (fillMap b.order_id_map bo (min bo.quantity ao.quantity)) ao
            (min bo.quantity ao.quantity),
        current_order_id := b.current_order_id } := rfl
  obtain ⟨preB, postB, hlsB, hqB⟩ := shrinkSide_queueOrders hbl
    { bl with orders := fillOrders bo brest (min bo.quantity ao.quantity),
              total_quantity := bl.total_quantity - min bo.quantity ao.quantity }
  obtain ⟨preA, postA, hlsA, hqA⟩ := shrinkSide_queueOrders hal
    { al with orders := fillOrders ao arest (min bo.quantity ao.quantity),
              total_quantity := al.total_quantity - min bo.quantity ao.quantity }
  dsimp only at hqB hqA
  have hQb : queueOrders b.bids = queueOrders preB ++ (bo :: brest) ++ queueOrders postB := by
    rw [hlsB, queueOrders_append, queueOrders_cons, hbo, List.append_assoc]
  have hQa : queueOrders b.asks = queueOrders preA ++ (ao :: arest) ++ queueOrders postA := by
    rw [hlsA, queueOrders_append, queueOrders_cons, hao, List.append_assoc]
  have hboMem : bo ∈ queueOrders b.bids := by rw [hQb]; simp
  have haoMem : ao ∈ queueOrders b.asks := by rw [hQa]; simp
  have hboAll : bo ∈ allOrders b := List.mem_append_left _ hboMem
  have haoAll : ao ∈ allOrders b := List.mem_append_right _ haoMem
  have hndBids : ((queueOrders b.bids).map (fun x => x.id)).Nodup :=
    List.Nodup.sublist (List.Sublist.map _ (List.sublist_append_left _ _)) hind
  have hndAsks : ((queueOrders b.asks).map (fun x => x.id)).Nodup :=
    List.Nodup.sublist (List.Sublist.map _ (List.sublist_append_right _ _)) hind
  have hsplitB : bo.id ∉ (queueOrders preB).map (fun x => x.id) ∧
      bo.id ∉ brest.map (fun x => x.id) ∧
      bo.id ∉ (queueOrders postB).map (fun x => x.id) := by
    have h := hndBids
    rw [hQb, List.map_append, List.map_append, List.map_cons, List.append_assoc,
      List.cons_append] at h
    obtain ⟨h1, h2⟩ := nodup_split2 h
    exact ⟨h1, fun hm => h2 (List.mem_append_left _ hm),
      fun hm => h2 (List.mem_append_right _ hm)⟩
  have hsplitA : ao.id ∉ (queueOrders preA).map (fun x => x.id) ∧
      ao.id ∉ arest.map (fun x => x.id) ∧
      ao.id ∉ (queueOrders postA).map (fun x => x.id) := by
    have h := hndAsks
    rw [hQa, List.map_append, List.map_append, List.map_cons, List.append_assoc,
      List.cons_append] at h
    obtain ⟨h1, h2⟩ := nodup_split2 h
    exact ⟨h1, fun hm => h2 (List.mem_append_left _ hm),
      fun hm => h2 (List.mem_append_right _ hm)⟩
  have hbo_ao_ne : bo.id ≠ ao.id := cross_id_ne hwf hboMem haoMem
  have hsubB : List.Sublist
      ((queueOrders preB ++ fillOrders bo brest (min bo.quantity ao.quantity) ++
          queueOrders postB).map (fun x => x.id))
      ((queueOrders b.bids).map (fun x => x.id)) := by
    rw [hQb, List.map_append, List.map_append, List.map_append, List.map_append]
    exact List.Sublist.append
      (List.Sublist.append (List.Sublist.refl _) (fillOrders_ids_sublist bo brest _))
      (List.Sublist.refl _)
  have hsubA : List.Sublist
      ((queueOrders preA ++ fillOrders ao arest (min bo.quantity ao.quantity) ++
          queueOrders postA).map (fun x => x.id))
      ((queueOrders b.asks).map (fun x => x.id)) := by
    rw [hQa, List.map_append, List.map_append, List.map_append, List.map_append]
    exact List.Sublist.append
      (List.Sublist.append (List.Sublist.refl _) (fillOrders_ids_sublist ao arest _))
      (List.Sublist.refl _)
  rw [hb2]
  unfold OrderBook.WF allOrders
  dsimp only
  refine ⟨?_, ?_, hcur, ?_, ?_, ?_, ?_, ?_⟩
  · refine shrinkSide_sideWF hbside hbl rfl ?_
    intro hne
    exact fill_levelWF (hbside.1 bl (findLevel_mem hbl).1) hbo (by omega) hne
  · refine shrinkSide_sideWF haside hal rfl ?_
    intro hne
    exact fill_levelWF (haside.1 al (findLevel_mem hal).1) hao (by omega) hne
  · exact List.Nodup.sublist
      (List.Sublist.map _ ((fillMap_sublist _ ao _).trans (fillMap_sublist _ bo _))) hknd
  · rw [hqB, hqA]
    refine List.Nodup.sublist ?_ hind
    have hall : (allOrders b).map (fun x => x.id) =
        (queueOrders b.bids).map (fun x => x.id) ++
          (queueOrders b.asks).map (fun x => x.id) := by
      show (queueOrders b.bids ++ queueOrders b.asks).map (fun x => x.id) = _
      rw [List.map_append]
    rw [hall, List.map_append]
    exact List.Sublist.append hsubB hsubA
  · intro e he
    have hknd1 : ((fillMap b.order_id_map bo (min bo.quantity ao.quantity)).map
        (fun x => x.1)).Nodup :=
      List.Nodup.sublist (List.Sublist.map _ (fillMap_sublist _ _ _)) hknd
    obtain ⟨he1, haoc⟩ := mem_fillMap_cases hknd1 he
    obtain ⟨he2, hboc⟩ := mem_fillMap_cases hknd he1
    obtain ⟨o, homem, hoid, hobuy, hoprice⟩ := hent e he2
    have homem2 : o ∈ queueOrders b.bids ++ queueOrders b.asks := homem
    rcases List.mem_append.mp homem2 with hbid | hask
    · rw [hQb] at hbid
      rcases List.mem_append.mp hbid with hbid1 | hpostB
      · rcases List.mem_append.mp hbid1 with hpreB | hblo
        · refine ⟨o, ?_, hoid, hobuy, hoprice⟩
          refine List.mem_append_left _ ?_
          rw [hqB]
          exact List.mem_append_left _ (List.mem_append_left _ hpreB)
        · rcases List.mem_cons.mp hblo with rfl | hbrest
          · by_cases hzb : o.quantity - min o.quantity ao.quantity = 0
            · exact absurd hoid.symm (hboc hzb)
            · refine ⟨{ o with quantity := o.quantity - min o.quantity ao.quantity },
                ?_, hoid, hobuy, hoprice⟩
              refine List.mem_append_left _ ?_
              rw [hqB]
              exact List.mem_append_left _
                (List.mem_append_right _ (head_mem_fillOrders hzb))
          · refine ⟨o, ?_, hoid, hobuy, hoprice⟩
            refine List.mem_append_left _ ?_
            rw [hqB]
            exact List.mem_append_left _
              (List.mem_append_right _ (mem_fillOrders_of_mem_rest hbrest))
      · refine ⟨o, ?_, hoid, hobuy, hoprice⟩
        refine List.mem_append_left _ ?_
        rw [hqB]
        exact List.mem_append_right _ hpostB
    · rw [hQa] at hask
      rcases List.mem_append.mp hask with hask1 | hpostA
      · rcases List.mem_append.mp hask1 with hpreA | halo
        · refine ⟨o, ?_, hoid, hobuy, hoprice⟩
          refine List.mem_append_right _ ?_
          rw [hqA]
          exact List.mem_append_left _ (List.mem_append_left _ hpreA)
        · rcases List.mem_cons.mp halo with rfl | harest
          · by_cases hza : o.quantity - min bo.quantity o.quantity = 0
            · exact absurd hoid.symm (haoc hza)
            · refine ⟨{ o with quantity := o.quantity - min bo.quantity o.quantity },
                ?_, hoid, hobuy, hoprice⟩
              refine List.mem_append_right _ ?_
              rw [hqA]
              exact List.mem_append_left _
                (List.mem_append_right _ (head_mem_fillOrders hza))
          · refine ⟨o, ?_, hoid, hobuy, hoprice⟩
            refine List.mem_append_right _ ?_
            rw [hqA]
            exact List.mem_append_left _
              (List.mem_append_right _ (mem_fillOrders_of_mem_rest harest))
      · refine ⟨o, ?_, hoid, hobuy, hoprice⟩
        refine List.mem_append_right _ ?_
        rw [hqA]
        exact List.mem_append_right _ hpostA
  · intro o2 ho2
    rcases List.mem_append.mp ho2 with hb' | ha'
    · rw [hqB] at hb'
      rcases List.mem_append.mp hb' with hb1 | hpostB
      · rcases List.mem_append.mp hb1 with hpreB | hfillB
        · have ho2bid : o2 ∈ queueOrders b.bids := by
            rw [hQb]
            exact List.mem_append_left _ (List.mem_append_left _ hpreB)
          refine mem_fillMap_keep (mem_fillMap_keep
            (hordm o2 (List.mem_append_left _ ho2bid)) ?_) ?_
          · intro hzb hid
            exact hsplitB.1 (hid ▸ List.mem_map_of_mem _ hpreB)
          · intro hza hid
            exact cross_id_ne hwf ho2bid haoMem hid
        · rcases mem_fillOrders hfillB with hbrest | ⟨rfl, hnz⟩
          · have ho2bid : o2 ∈ queueOrders b.bids := by
              rw [hQb]
              exact List.mem_append_left _
                (List.mem_append_right _ (List.mem_cons_of_mem bo hbrest))
            refine mem_fillMap_keep (mem_fillMap_keep
              (hordm o2 (List.mem_append_left _ ho2bid)) ?_) ?_
            · intro hzb hid
              exact hsplitB.2.1 (hid ▸ List.mem_map_of_mem _ hbrest)
            · intro hza hid
              exact cross_id_ne hwf ho2bid haoMem hid
          · refine mem_fillMap_keep (mem_fillMap_keep (hordm bo hboAll) ?_) ?_
            · intro hzb
              exact absurd hzb hnz
            · intro hza hid
              exact hbo_ao_ne hid
      · have ho2bid : o2 ∈ queueOrders b.bids := by
          rw [hQb]
          exact List.mem_append_right _ hpostB
        refine mem_fillMap_keep (mem_fillMap_keep
          (hordm o2 (List.mem_append_left _ ho2bid)) ?_) ?_
        · intro hzb hid
          exact hsplitB.2.2 (hid ▸ List.mem_map_of_mem _ hpostB)
        · intro hza hid
          exact cross_id_ne hwf ho2bid haoMem hid
    · rw [hqA] at ha'
      rcases List.mem_append.mp ha' with ha1 | hpostA
      · rcases List.mem_append.mp ha1 with hpreA | hfillA
        · have ho2ask : o2 ∈ queueOrders b.asks := by
            rw [hQa]
            exact List.mem_append_left _ (List.mem_append_left _ hpreA)
          refine mem_fillMap_keep (mem_fillMap_keep
            (hordm o2 (List.mem_append_right _ ho2ask)) ?_) ?_
          · intro hzb hid
            exact cross_id_ne hwf hboMem ho2ask hid.symm
          · intro hza hid
            exact hsplitA.1 (hid ▸ List.mem_map_of_mem _ hpreA)
        · rcases mem_fillOrders hfillA with harest | ⟨rfl, hnz⟩
          · have ho2ask : o2 ∈ queueOrders b.asks := by
              rw [hQa]
              exact List.mem_append_left _
                (List.mem_append_right _ (List.mem_cons_of_mem ao harest))
            refine mem_fillMap_keep (mem_fillMap_keep
              (hordm o2 (List.mem_append_right _ ho2ask)) ?_) ?_
            · intro hzb hid
              exact cross_id_ne hwf hboMem ho2ask hid.symm
            · intro hza hid
              exact hsplitA.2.1 (hid ▸ List.mem_map_of_mem _ harest)
          · refine mem_fillMap_keep (mem_fillMap_keep (hordm ao haoAll) ?_) ?_
            · intro hzb hid
              exact hbo_ao_ne hid.symm
            · intro hza
              exact absurd hza hnz
      · have ho2ask : o2 ∈ queueOrders b.asks := by
          rw [hQa]
          exact List.mem_append_right _ hpostA
        refine mem_fillMap_keep (mem_fillMap_keep
          (hordm o2 (List.mem_append_right _ ho2ask)) ?_) ?_
        · intro hzb hid
          exact cross_id_ne hwf hboMem ho2ask hid.symm
        · intro hza hid
          exact hsplitA.2.2 (hid ▸ List.mem_map_of_mem _ hpostA)
  · intro e he
    have he1 : e ∈ fillMap b.order_id_map bo (min bo.quantity ao.quantity) :=
      (fillMap_sublist _ ao _).subset he
    exact hbound e ((fillMap_sublist _ bo _).subset he1)

/-- Every loop iteration preserves the joint book invariant. -/
theorem execStep_wf {b : OrderBook} {t? : Option TradeRecord} {b2 : OrderBook}
    (hwf : b.WF) (h : execStep b = some (t?, b2)) : b2.WF := by
  by_cases hg : get_best_bid b = -1 ∨ get_best_ask b = -1 ∨ get_best_bid b < get_best_ask b
  · rw [execStep_of_guard hg] at h; cases h
  · obtain ⟨bl, al, hbl, hal, hcase⟩ := execStep_char hg
    rcases hcase with ⟨hempty, hstep⟩ | ⟨bo, brest, ao, arest, hbo, hao, hstep⟩
    · exfalso
      rcases hempty with hb | ha
      · exact ((hwf.1).1 bl (findLevel_mem hbl).1).1 hb
      · exact ((hwf.2.1).1 al (findLevel_mem hal).1).1 ha
    · rw [hstep] at h
      injection h with h2
      have hb2 : b2 = (tradeFill b (get_best_bid b) (get_best_ask b) bl al bo brest ao arest).2 :=
        (congrArg Prod.snd h2).symm
      rw [hb2]
      exact tradeFill_wf hwf hbl hal hbo hao

theorem execLoopN_wf :
    ∀ (fuel : Nat) (b : OrderBook), b.WF → ((execLoopN fuel b).2).WF := by
  intro fuel
  induction fuel with
  | zero => intro b hwf; exact hwf
  | succ n ih =>
    intro b hwf
    rw [execLoopN]
    cases hstep : execStep b with
    | none => exact hwf
    | some pr =>
      obtain ⟨t?, b2⟩ := pr
      cases t? with
      | none => exact ih b2 (execStep_wf hwf hstep)
      | some t => exact ih b2 (execStep_wf hwf hstep)

theorem execute_trades_wf {b : OrderBook} (hwf : b.WF) : ((b.execute_trades).2).WF :=
  execLoopN_wf (bookMeasure b + 1) b hwf

/-- Under the invariant, a quiescent book has an empty side or no cross. -/
theorem wf_quiescent_no_cross {c : OrderBook} (hwf : c.WF) (hnone : execStep c = none) :
    c.bids = [] ∨ c.asks = [] ∨ get_best_bid c < get_best_ask c := by
  rcases execStep_eq_none_iff.mp hnone with h | h | h
  · left
    by_contra hne
    obtain ⟨l, hl, hlp⟩ := get_best_bid_attained hne
    have hpos := ((hwf.1).1 l hl).2.1
    rw [hlp, h] at hpos
    exact absurd hpos (by norm_num)
  · right; left
    by_contra hne
    obtain ⟨l, hl, hlp⟩ := get_best_ask_attained hne
    have hpos := ((hwf.2.1).1 l hl).2.1
    rw [hlp, h] at hpos
    exact absurd hpos (by norm_num)
  · right; right; exact h

/-
Invariant preservation for add_order.
-/

/-- Core argument: appending a fresh order preserves the id-map coherence. -/
theorem insert_order_wf_core {b b2 : OrderBook} (o : Order)
    (hwf : b.WF)
    (hperm : ∃ X Y, allOrders b = X ++ Y ∧ allOrders b2 = X ++ o :: Y)
    (hmap : b2.order_id_map = (o.id, o.is_buy, o.price) :: b.order_id_map)
    (hcur2 : b2.current_order_id = b.current_order_id + 1)
    (hoid : o.id = b.current_order_id + 1)
    (hsb : sideWF true b2.bids) (hsa : sideWF false b2.asks) :
    b2.WF := by
  have hcur := hwf.2.2.1
  have hknd := hwf.2.2.2.1
  have hind := hwf.2.2.2.2.1
  have hent := hwf.2.2.2.2.2.1
  have hordm := hwf.2.2.2.2.2.2.1
  have hbound := hwf.2.2.2.2.2.2.2
  have hfreshk : ∀ e ∈ b.order_id_map, e.1 ≠ o.id := by
    intro e he
    have := hbound e he
    omega
  have hfresho : ∀ x ∈ allOrders b, x.id ≠ o.id := by
    intro x hx
    have := hbound _ (hordm x hx)
    omega
  obtain ⟨X, Y, hXY, hXY2⟩ := hperm
  have hmem2 : ∀ x, x ∈ allOrders b2 ↔ x = o ∨ x ∈ allOrders b := by
    intro x
    rw [hXY2, hXY]
    simp only [List.mem_append, List.mem_cons]
    tauto
  have hidperm : List.Perm ((allOrders b2).map (fun x => x.id))
      (o.id :: (allOrders b).map (fun x => x.id)) := by
    rw [hXY2, hXY, List.map_append, List.map_cons, List.map_append]
    exact List.perm_middle
  refine ⟨hsb, hsa, by omega, ?_, ?_, ?_, ?_, ?_⟩
  · rw [hmap, List.map_cons]
    refine List.nodup_cons.mpr ⟨?_, hknd⟩
    intro hmem
    obtain ⟨e, he, heid⟩ := List.mem_map.mp hmem
    exact hfreshk e he heid
  · refine (List.Perm.nodup_iff hidperm).mpr ?_
    refine List.nodup_cons.mpr ⟨?_, hind⟩
    intro hmem
    obtain ⟨x, hx, hxid⟩ := List.mem_map.mp hmem
    exact hfresho x hx hxid
  · intro e he
    rw [hmap] at he
    rcases List.mem_cons.mp he with rfl | he2
    · exact ⟨o, (hmem2 o).mpr (Or.inl rfl), rfl, rfl, rfl⟩
    · obtain ⟨x, hx, h1, h2, h3⟩ := hent e he2
      exact ⟨x, (hmem2 x).mpr (Or.inr hx), h1, h2, h3⟩
  · intro x hx
    rw [hmap]
    rcases (hmem2 x).mp hx with rfl | hx2
    · exact List.mem_cons_self _ _
    · exact List.mem_cons_of_mem _ (hordm x hx2)
  · intro e he
    rw [hmap] at he
    rcases List.mem_cons.mp he with rfl | he2
    · constructor <;> omega
    · have := hbound e he2
      constructor <;> omega

theorem updateLevel_add_sideWF {buy : Bool} {ls : List PriceLevel} {p : Rat}
    {lvl : PriceLevel} {o : Order}
    (hside : sideWF buy ls) (hfl : findLevel ls p = some lvl)
    (hop : o.price = p) (hob : o.is_buy = buy) (hoq : 0 < o.quantity) :
    sideWF buy (updateLevel ls p (lvl.add_order o)) := by
  obtain ⟨hlp, pre, post, hls, -, -, hupd⟩ := findLevel_decomp hfl
  rw [hupd]
  have hside2 := hside
  rw [hls] at hside2
  obtain ⟨hne, hp, hsum, hf⟩ := hside.1 lvl (findLevel_mem hfl).1
  constructor
  · intro x hx
    rcases List.mem_append.mp hx with hx1 | hx2
    · exact hside2.1 x (List.mem_append_left _ hx1)
    · rcases List.mem_cons.mp hx2 with rfl | hx3
      · refine ⟨by simp [PriceLevel.add_order], hp, ?_, ?_⟩
        · show lvl.total_quantity + o.quantity =
            ((lvl.orders ++ [o]).map (fun x => x.quantity)).sum
          rw [List.map_append, List.sum_append, hsum]
          simp
        · intro x hx
          have hx0 : x ∈ lvl.orders ++ [o] := hx
          rcases List.mem_append.mp hx0 with hx1 | hx2
          · exact hf x hx1
          · rcases List.mem_singleton.mp hx2 with rfl
            exact ⟨hop.trans hlp.symm, hob, hoq⟩
      · exact hside2.1 x (List.mem_append_right _ (List.mem_cons_of_mem lvl hx3))
  · have h2 := hside2.2
    rw [List.map_append, List.map_cons] at h2 ⊢
    exact h2

theorem newLevel_sideWF {buy : Bool} {ls : List PriceLevel} {p : Rat} {o : Order}
    (hside : sideWF buy ls) (hfl : findLevel ls p = none)
    (hop : o.price = p) (hob : o.is_buy = buy) (hoq : 0 < o.quantity) (hp : 0 < p) :
    sideWF buy (PriceLevel.add_order ⟨p, [], 0⟩ o :: ls) := by
  constructor
  · intro x hx
    rcases List.mem_cons.mp hx with rfl | hx2
    · refine ⟨by simp [PriceLevel.add_order], hp, by simp [PriceLevel.add_order], ?_⟩
      intro y hy
      have : y ∈ [o] := hy
      rcases List.mem_singleton.mp this with rfl
      exact ⟨hop, hob, hoq⟩
    · exact hside.1 x hx2
  · rw [List.map_cons]
    refine List.nodup_cons.mpr ⟨?_, hside.2⟩
    intro hmem
    obtain ⟨l, hl, hlp⟩ := List.mem_map.mp hmem
    exact (findLevel_eq_none.mp hfl l hl) (by exact hlp)

/-
Explicit equations for add_order.
-/

theorem add_order_invalid {b : OrderBook} {buy : Bool} {q : Int} {p : Rat} {cid : Int}
    (h : q ≤ 0 ∨ p ≤ 0) :
    b.add_order buy q p cid = (Except.error BookError.invalidArgument, b) := by
  unfold OrderBook.add_order
  rw [if_pos h]

theorem add_order_buy_some {b : OrderBook} {q : Int} {p : Rat} {cid : Int} {lvl : PriceLevel}
    (h : ¬ (q ≤ 0 ∨ p ≤ 0)) (hfl : findLevel b.bids p = some lvl)
    (hfresh : findId b.order_id_map (b.current_order_id + 1) = none) :
    b.add_order true q p cid =
      (Except.ok (b.current_order_id + 1),
        { b with
            bids := updateLevel b.bids p
              (lvl.add_order ⟨b.current_order_id + 1, true, q, p, cid⟩),
            order_id_map := (b.current_order_id + 1, true, p) :: b.order_id_map,
            current_order_id := b.current_order_id + 1 }) := by
  unfold OrderBook.add_order
  rw [if_neg h]
  dsimp only
  rw [if_pos rfl, hfl]
  unfold emplaceId
  rw [hfresh]

theorem add_order_buy_none {b : OrderBook} {q : Int} {p : Rat} {cid : Int}
    (h : ¬ (q ≤ 0 ∨ p ≤ 0)) (hfl : findLevel b.bids p = none)
    (hfresh : findId b.order_id_map (b.current_order_id + 1) = none) :
    b.add_order true q p cid =
      (Except.ok (b.current_order_id + 1),
        { b with
            bids := PriceLevel.add_order ⟨p, [], 0⟩
              ⟨b.current_order_id + 1, true, q, p, cid⟩ :: b.bids,
            order_id_map := (b.current_order_id + 1, true, p) :: b.order_id_map,
            current_order_id := b.current_order_id + 1 }) := by
  unfold OrderBook.add_order
  rw [if_neg h]
  dsimp only
  rw [if_pos rfl, hfl]
  unfold emplaceId
  rw [hfresh]

theorem add_order_sell_some {b : OrderBook} {q : Int} {p : Rat} {cid : Int} {lvl : PriceLevel}
    (h : ¬ (q ≤ 0 ∨ p ≤ 0)) (hfl : findLevel b.asks p = some lvl)
    (hfresh : findId b.order_id_map (b.current_order_id + 1) = none) :
    b.add_order false q p cid =
      (Except.ok (b.current_order_id + 1),
        { b with
            asks := updateLevel b.asks p
              (lvl.add_order ⟨b.current_order_id + 1, false, q, p, cid⟩),
            order_id_map := (b.current_order_id + 1, false, p) :: b.order_id_map,
            current_order_id := b.current_order_id + 1 }) := by
  unfold OrderBook.add_order
  rw [if_neg h]
  dsimp only
  rw [if_neg (by simp : ¬ (false = true)), hfl]
  unfold emplaceId
  rw [hfresh]

theorem add_order_sell_none {b : OrderBook} {q : Int} {p : Rat} {cid : Int}
    (h : ¬ (q ≤ 0 ∨ p ≤ 0)) (hfl : findLevel b.asks p = none)
    (hfresh : findId b.order_id_map (b.current_order_id + 1) = none) :
    b.add_order false q p cid =
      (Except.ok (b.current_order_id + 1),
        { b with
            asks := PriceLevel.add_order ⟨p, [], 0⟩
              ⟨b.current_order_id + 1, false, q, p, cid⟩ :: b.asks,
            order_id_map := (b.current_order_id + 1, false, p) :: b.order_id_map,
            current_order_id := b.current_order_id + 1 }) := by
  unfold OrderBook.add_order
  rw [if_neg h]
  dsimp only
  rw [if_neg (by simp : ¬ (false = true)), hfl]
  unfold emplaceId
  rw [hfresh]

theorem fresh_id_not_in_map {b : OrderBook} (hwf : b.WF) :
    findId b.order_id_map (b.current_order_id + 1) = none := by
  refine findId_eq_none.mpr ?_
  intro e he
  have := hwf.2.2.2.2.2.2.2 e he
  omega

/-- add_order preserves the joint book invariant. -/
theorem add_order_wf {b : OrderBook} {buy : Bool} {q : Int} {p : Rat} {cid : Int}
    (hwf : b.WF) : ((b.add_order buy q p cid).2).WF := by
  by_cases hv : q ≤ 0 ∨ p ≤ 0
  · rw [add_order_invalid hv]; exact hwf
  · have hq : 0 < q := lt_of_not_le (fun hc => hv (Or.inl hc))
    have hp : 0 < p := lt_of_not_le (fun hc => hv (Or.inr hc))
    have hfresh := fresh_id_not_in_map hwf
    cases buy with
    | true =>
      cases hfl : findLevel b.bids p with
      | some lvl =>
        rw [add_order_buy_some hv hfl hfresh]
        obtain ⟨hlp, pre, post, hls, -, -, hupd⟩ := findLevel_decomp hfl
        refine insert_order_wf_core ⟨b.current_order_id + 1, true, q, p, cid⟩
          hwf ?_ rfl rfl rfl ?_ hwf.2.1
        · refine ⟨queueOrders pre ++ lvl.orders, queueOrders post ++ queueOrders b.asks,
            ?_, ?_⟩
          · show queueOrders b.bids ++ queueOrders b.asks = _
            rw [hls, queueOrders_append, queueOrders_cons]
            simp [List.append_assoc]
          · show queueOrders (updateLevel b.bids p _) ++ queueOrders b.asks = _
            rw [hupd, queueOrders_append, queueOrders_cons]
            show queueOrders pre ++ ((lvl.orders ++ [_]) ++ queueOrders post) ++ _ = _
            simp [List.append_assoc]
        · exact updateLevel_add_sideWF hwf.1 hfl rfl rfl hq
      | none =>
        rw [add_order_buy_none hv hfl hfresh]
        refine insert_order_wf_core ⟨b.current_order_id + 1, true, q, p, cid⟩
          hwf ?_ rfl rfl rfl ?_ hwf.2.1
        · refine ⟨[], queueOrders b.bids ++ queueOrders b.asks, rfl, ?_⟩
          show queueOrders (_ :: b.bids) ++ queueOrders b.asks = _
          rw [queueOrders_cons]
          show (([] ++ [_]) ++ queueOrders b.bids) ++ queueOrders b.asks = _
          simp [List.append_assoc]
        · exact newLevel_sideWF hwf.1 hfl rfl rfl hq hp
    | false =>
      cases hfl : findLevel b.asks p with
      | some lvl =>
        rw [add_order_sell_some hv hfl hfresh]
        obtain ⟨hlp, pre, post, hls, -, -, hupd⟩ := findLevel_decomp hfl
        refine insert_order_wf_core ⟨b.current_order_id + 1, false, q, p, cid⟩
          hwf ?_ rfl rfl rfl hwf.1 ?_
        · refine ⟨queueOrders b.bids ++ (queueOrders pre ++ lvl.orders), queueOrders post,
            ?_, ?_⟩
          · show queueOrders b.bids ++ queueOrders b.asks = _
            rw [hls, queueOrders_append, queueOrders_cons]
            simp [List.append_assoc]
          · show queueOrders b.bids ++ queueOrders (updateLevel b.asks p _) = _
            rw [hupd, queueOrders_append, queueOrders_cons]
            show _ ++ (queueOrders pre ++ ((lvl.orders ++ [_]) ++ queueOrders post)) = _
            simp [List.append_assoc]
        · exact updateLevel_add_sideWF hwf.2.1 hfl rfl rfl hq
      | none =>
        rw [add_order_sell_none hv hfl hfresh]
        refine insert_order_wf_core ⟨b.current_order_id + 1, false, q, p, cid⟩
          hwf ?_ rfl rfl rfl hwf.1 ?_
        · refine ⟨queueOrders b.bids, queueOrders b.asks, rfl, ?_⟩
          show queueOrders b.bids ++ queueOrders (_ :: b.asks) = _
          rw [queueOrders_cons]
          show _ ++ (([] ++ [_]) ++ queueOrders b.asks) = _
          simp [List.append_assoc]
        · exact newLevel_sideWF hwf.2.1 hfl rfl rfl hq hp

/-
Invariant preservation and explicit equations for cancel_order.
-/

theorem findId_removeId_ne {m : List (Int × Bool × Rat)} {k k2 : Int} (hne : k2 ≠ k) :
    findId (removeId m k) k2 = findId m k2 := by
  induction m with
  | nil => rfl
  | cons hd rest ih =>
    by_cases hk : hd.1 = k
    · rw [removeId, if_pos hk, findId, if_neg (by rw [hk]; exact fun hc => hne hc.symm)]
    · rw [removeId, if_neg hk]
      by_cases hk2 : hd.1 = k2
      · rw [findId, if_pos hk2, findId, if_pos hk2]
      · rw [findId, if_neg hk2, findId, if_neg hk2, ih]

theorem findId_removeId_self {m : List (Int × Bool × Rat)} {k : Int}
    (hnd : (m.map (fun e => e.1)).Nodup) : findId (removeId m k) k = none :=
  findId_eq_none.mpr (fun _e he => (not_key_mem_removeId hnd he).2)

theorem removeLevel_sideWF {buy : Bool} {ls : List PriceLevel} {p : Rat}
    (hside : sideWF buy ls) : sideWF buy (removeLevel ls p) :=
  ⟨fun l hl => hside.1 l ((removeLevel_sublist ls p).subset hl),
    List.Nodup.sublist (List.Sublist.map _ (removeLevel_sublist ls p)) hside.2⟩

theorem updateLevel_sideWF {buy : Bool} {ls : List PriceLevel} {p : Rat} {l nl : PriceLevel}
    (hside : sideWF buy ls) (hfl : findLevel ls p = some l)
    (hnlp : nl.price = l.price) (hwfnl : levelWF buy nl) :
    sideWF buy (updateLevel ls p nl) := by
  obtain ⟨-, pre, post, hls, -, -, hupd⟩ := findLevel_decomp hfl
  rw [hupd]
  have hside2 := hside
  rw [hls] at hside2
  constructor
  · intro x hx
    rcases List.mem_append.mp hx with hx1 | hx2
    · exact hside2.1 x (List.mem_append_left _ hx1)
    · rcases List.mem_cons.mp hx2 with rfl | hx3
      · exact hwfnl
      · exact hside2.1 x (List.mem_append_right _ (List.mem_cons_of_mem l hx3))
  · have h2 := hside2.2
    rw [List.map_append, List.map_cons] at h2 ⊢
    rw [hnlp]
    exact h2

theorem sum_pos_eq_zero_nil {os : List Order} (hpos : ∀ x ∈ os, 0 < x.quantity)
    (hsum : (os.map (fun x => x.quantity)).sum = 0) : os = [] := by
  cases os with
  | nil => rfl
  | cons hd tl =>
    exfalso
    rw [List.map_cons, List.sum_cons] at hsum
    have h1 : 0 < hd.quantity := hpos hd (List.mem_cons_self hd tl)
    have h2 : 0 ≤ (tl.map (fun x => x.quantity)).sum :=
      List.sum_nonneg (by
        intro y hy
        obtain ⟨x, hx, rfl⟩ := List.mem_map.mp hy
        exact le_of_lt (hpos x (List.mem_cons_of_mem hd hx)))
    omega

/-- Core argument: removing one order preserves the id-map coherence. -/
theorem remove_order_wf_core {b b2 : OrderBook} (o : Order)
    (hwf : b.WF)
    (hperm : ∃ X Y, allOrders b = X ++ o :: Y ∧ allOrders b2 = X ++ Y)
    (hmap : b2.order_id_map = removeId b.order_id_map o.id)
    (hcur2 : b2.current_order_id = b.current_order_id)
    (hsb : sideWF true b2.bids) (hsa : sideWF false b2.asks) :
    b2.WF := by
  have hcur := hwf.2.2.1
  have hknd := hwf.2.2.2.1
  have hind := hwf.2.2.2.2.1
  have hent := hwf.2.2.2.2.2.1
  have hordm := hwf.2.2.2.2.2.2.1
  have hbound := hwf.2.2.2.2.2.2.2
  obtain ⟨X, Y, hXY, hXY2⟩ := hperm
  have hidperm : List.Perm ((allOrders b).map (fun x => x.id))
      (o.id :: (X ++ Y).map (fun x => x.id)) := by
    rw [hXY, List.map_append, List.map_cons, List.map_append]
    exact List.perm_middle
  have hnd2 := (List.Perm.nodup_iff hidperm).mp hind
  have hfresh : o.id ∉ (X ++ Y).map (fun x => x.id) := (List.nodup_cons.mp hnd2).1
  have hmemb : ∀ x, x ∈ allOrders b ↔ x = o ∨ x ∈ X ++ Y := by
    intro x
    rw [hXY]
    simp only [List.mem_append, List.mem_cons]
    tauto
  refine ⟨hsb, hsa, by omega, ?_, ?_, ?_, ?_, ?_⟩
  · rw [hmap]
    exact List.Nodup.sublist (List.Sublist.map _ (removeId_sublist _ _)) hknd
  · rw [hXY2]
    exact (List.nodup_cons.mp hnd2).2
  · intro e he
    rw [hmap] at he
    obtain ⟨he2, hek⟩ := not_key_mem_removeId hknd he
    obtain ⟨x, hx, h1, h2, h3⟩ := hent e he2
    rcases (hmemb x).mp hx with rfl | hx2
    · exact absurd h1.symm hek
    · exact ⟨x, by rw [hXY2]; exact hx2, h1, h2, h3⟩
  · intro x hx
    rw [hXY2] at hx
    have hxid : x.id ≠ o.id := by
      intro hc
      exact hfresh (hc ▸ List.mem_map_of_mem (fun y => y.id) hx)
    rw [hmap]
    exact mem_removeId_of_ne (hordm x ((hmemb x).mpr (Or.inr hx))) hxid
  · intro e he
    rw [hmap] at he
    have := hbound e ((removeId_sublist _ _).subset he)
    omega

theorem cancel_order_notFound {b : OrderBook} {oid : Int}
    (h : findId b.order_id_map oid = none) :
    b.cancel_order oid = (Except.error BookError.notFound, b) := by
  unfold OrderBook.cancel_order
  rw [h]

/-- Locate the order a found id-map entry points at, on the bid side. -/
theorem cancel_locate_buy {b : OrderBook} {oid : Int} {p : Rat}
    (hwf : b.WF) (hfind : findId b.order_id_map oid = some (true, p)) :
    ∃ lvl o pre post,
      findLevel b.bids p = some lvl ∧ lvl.orders = pre ++ o :: post ∧
      o.id = oid ∧ o.is_buy = true ∧ o.price = p ∧
      removeFirstById lvl.orders oid = some (o, pre ++ post) := by
  obtain ⟨preM, postM, hm, -, -⟩ := findId_decomp hfind
  have hentry : (oid, true, p) ∈ b.order_id_map := by
    rw [hm]
    exact List.mem_append_right _ (List.mem_cons_self _ _)
  obtain ⟨o, homem, hoid, hobuy, hoprice⟩ := hwf.2.2.2.2.2.1 _ hentry
  have homem2 : o ∈ queueOrders b.bids ++ queueOrders b.asks := homem
  have hobid : o ∈ queueOrders b.bids := by
    rcases List.mem_append.mp homem2 with h | h
    · exact h
    · exfalso
      have := (queue_fields hwf.2.1 h).1
      rw [hobuy] at this
      cases this
  obtain ⟨lvl, hlvl, holvl⟩ := mem_queueOrders.mp hobid
  have hlp : lvl.price = p := by
    have := ((hwf.1).1 lvl hlvl).2.2.2 o holvl
    rw [← this.1, hoprice]
  have hflvl : findLevel b.bids p = some lvl :=
    findLevel_of_mem_nodup (hwf.1).2 hlvl hlp
  have hndlvl : (lvl.orders.map (fun x => x.id)).Nodup := by
    obtain ⟨s, t, hst⟩ := List.append_of_mem hlvl
    have hsub : List.Sublist lvl.orders (queueOrders b.bids) := by
      rw [hst, queueOrders_append, queueOrders_cons]
      exact ((List.sublist_append_left lvl.orders (queueOrders t)).trans
        (List.sublist_append_right (queueOrders s) _))
    have hsub2 : List.Sublist lvl.orders (allOrders b) :=
      hsub.trans (List.sublist_append_left _ _)
    exact List.Nodup.sublist (List.Sublist.map _ hsub2) hwf.2.2.2.2.1
  obtain ⟨pre, post, hord, hrem⟩ := removeFirstById_of_mem_nodup hndlvl holvl hoid
  exact ⟨lvl, o, pre, post, hflvl, hord, hoid, hobuy, hoprice, hrem⟩

/-- Locate the order a found id-map entry points at, on the ask side. -/
theorem cancel_locate_sell {b : OrderBook} {oid : Int} {p : Rat}
    (hwf : b.WF) (hfind : findId b.order_id_map oid = some (false, p)) :
    ∃ lvl o pre post,
      findLevel b.asks p = some lvl ∧ lvl.orders = pre ++ o :: post ∧
      o.id = oid ∧ o.is_buy = false ∧ o.price = p ∧
      removeFirstById lvl.orders oid = some (o, pre ++ post) := by
  obtain ⟨preM, postM, hm, -, -⟩ := findId_decomp hfind
  have hentry : (oid, false, p) ∈ b.order_id_map := by
    rw [hm]
    exact List.mem_append_right _ (List.mem_cons_self _ _)
  obtain ⟨o, homem, hoid, hobuy, hoprice⟩ := hwf.2.2.2.2.2.1 _ hentry
  have homem2 : o ∈ queueOrders b.bids ++ queueOrders b.asks := homem
  have hoask : o ∈ queueOrders b.asks := by
    rcases List.mem_append.mp homem2 with h | h
    · exfalso
      have := (queue_fields hwf.1 h).1
      rw [hobuy] at this
      cases this
    · exact h
  obtain ⟨lvl, hlvl, holvl⟩ := mem_queueOrders.mp hoask
  have hlp : lvl.price = p := by
    have := ((hwf.2.1).1 lvl hlvl).2.2.2 o holvl
    rw [← this.1, hoprice]
  have hflvl : findLevel b.asks p = some lvl :=
    findLevel_of_mem_nodup (hwf.2.1).2 hlvl hlp
  have hndlvl : (lvl.orders.map (fun x => x.id)).Nodup := by
    obtain ⟨s, t, hst⟩ := List.append_of_mem hlvl
    have hsub : List.Sublist lvl.orders (queueOrders b.asks) := by
      rw [hst, queueOrders_append, queueOrders_cons]
      exact ((List.sublist_append_left lvl.orders (queueOrders t)).trans
        (List.sublist_append_right (queueOrders s) _))
    have hsub2 : List.Sublist lvl.orders (allOrders b) :=
      hsub.trans (List.sublist_append_right _ _)
    exact List.Nodup.sublist (List.Sublist.map _ hsub2) hwf.2.2.2.2.1
  obtain ⟨pre, post, hord, hrem⟩ := removeFirstById_of_mem_nodup hndlvl holvl hoid
  exact ⟨lvl, o, pre, post, hflvl, hord, hoid, hobuy, hoprice, hrem⟩

/-- Explicit result of a successful cancel of a resting bid. -/
theorem cancel_order_eq_buy {b : OrderBook} {oid : Int} {p : Rat}
    {lvl : PriceLevel} {o : Order} {rest : List Order}
    (hfind : findId b.order_id_map oid = some (true, p))
    (hflvl : findLevel b.bids p = some lvl)
    (hrem : removeFirstById lvl.orders oid = some (o, rest)) :
    b.cancel_order oid = (Except.ok (),
      { b with
          bids := if lvl.total_quantity - o.quantity = 0 then removeLevel b.bids p
                  else updateLevel b.bids p
                    ⟨lvl.price, rest, lvl.total_quantity - o.quantity⟩,
          order_id_map := removeId b.order_id_map oid }) := by
  unfold OrderBook.cancel_order
  rw [hfind]
  dsimp only
  rw [if_pos rfl, hflvl]
  dsimp only
  have hro : lvl.remove_order oid =
      some ⟨lvl.price, rest, lvl.total_quantity - o.quantity⟩ := by
    unfold PriceLevel.remove_order
    rw [hrem]
  rw [hro]

/-- Explicit result of a successful cancel of a resting ask. -/
theorem cancel_order_eq_sell {b : OrderBook} {oid : Int} {p : Rat}
    {lvl : PriceLevel} {o : Order} {rest : List Order}
    (hfind : findId b.order_id_map oid = some (false, p))
    (hflvl : findLevel b.asks p = some lvl)
    (hrem : removeFirstById lvl.orders oid = some (o, rest)) :
    b.cancel_order oid = (Except.ok (),
      { b with
          asks := if lvl.total_quantity - o.quantity = 0 then removeLevel b.asks p
                  else updateLevel b.asks p
                    ⟨lvl.price, rest, lvl.total_quantity - o.quantity⟩,
          order_id_map := removeId b.order_id_map oid }) := by
  unfold OrderBook.cancel_order
  rw [hfind]
  dsimp only
  rw [if_neg (by simp : ¬ (false = true)), hflvl]
  dsimp only
  have hro : lvl.remove_order oid =
      some ⟨lvl.price, rest, lvl.total_quantity - o.quantity⟩ := by
    unfold PriceLevel.remove_order
    rw [hrem]
  rw [hro]

/-- cancel_order preserves the joint book invariant. -/
theorem cancel_order_wf {b : OrderBook} {oid : Int} (hwf : b.WF) :
    ((b.cancel_order oid).2).WF := by
  cases hfind : findId b.order_id_map oid with
  | none => rw [cancel_order_notFound hfind]; exact hwf
  | some v =>
    obtain ⟨buy, p⟩ := v
    cases buy with
    | true =>
      obtain ⟨lvl, o, pre, post, hflvl, hord, hoid, hobuy, hoprice, hrem⟩ :=
        cancel_locate_buy hwf hfind
      rw [cancel_order_eq_buy hfind hflvl hrem]
      dsimp only
      obtain ⟨hlvlp, preL, postL, hls, -, hremL, hupdL⟩ := findLevel_decomp hflvl
      have hlw := (hwf.1).1 lvl (findLevel_mem hflvl).1
      have hfield := hlw.2.2.2
      have hsum := hlw.2.2.1
      have hsum2 : lvl.total_quantity - o.quantity =
          ((pre ++ post).map (fun x => x.quantity)).sum := by
        rw [hord, List.map_append, List.map_cons, List.sum_append, List.sum_cons] at hsum
        rw [List.map_append, List.sum_append]
        omega
      have hpos2 : ∀ x ∈ pre ++ post, 0 < x.quantity := by
        intro x hx
        refine (hfield x ?_).2.2
        rw [hord]
        rcases List.mem_append.mp hx with h | h
        · exact List.mem_append_left _ h
        · exact List.mem_append_right _ (List.mem_cons_of_mem o h)
      refine remove_order_wf_core o hwf ?_ (by rw [hoid]) rfl ?_ hwf.2.1
      · refine ⟨queueOrders preL ++ pre, post ++ queueOrders postL ++ queueOrders b.asks,
          ?_, ?_⟩
        · unfold allOrders
          rw [hls, queueOrders_append, queueOrders_cons, hord]
          simp [List.append_assoc]
        · by_cases hz : lvl.total_quantity - o.quantity = 0
          · have hpp : pre ++ post = [] :=
              sum_pos_eq_zero_nil hpos2 (by rw [← hsum2]; omega)
            obtain ⟨hpre0, hpost0⟩ := List.append_eq_nil.mp hpp
            unfold allOrders
            dsimp only
            rw [if_pos hz, hremL, queueOrders_append, hpre0, hpost0]
            simp [List.append_assoc]
          · unfold allOrders
            dsimp only
            rw [if_neg hz, hupdL ⟨lvl.price, pre ++ post, lvl.total_quantity - o.quantity⟩,
              queueOrders_append, queueOrders_cons]
            simp [List.append_assoc]
      · by_cases hz : lvl.total_quantity - o.quantity = 0
        · dsimp only
          rw [if_pos hz]
          exact removeLevel_sideWF hwf.1
        · dsimp only
          rw [if_neg hz]
          refine updateLevel_sideWF hwf.1 hflvl rfl ?_
          refine ⟨?_, hlw.2.1, hsum2, ?_⟩
          · intro hpp
            have hpp2 : pre ++ post = [] := hpp
            rw [hpp2] at hsum2
            exact hz hsum2
          · intro x hx
            have hx2 : x ∈ lvl.orders := by
              rw [hord]
              rcases List.mem_append.mp hx with h | h
              · exact List.mem_append_left _ h
              · exact List.mem_append_right _ (List.mem_cons_of_mem o h)
            exact hfield x hx2
    | false =>
      obtain ⟨lvl, o, pre, post, hflvl, hord, hoid, hobuy, hoprice, hrem⟩ :=
        cancel_locate_sell hwf hfind
      rw [cancel_order_eq_sell hfind hflvl hrem]
      dsimp only
      obtain ⟨hlvlp, preL, postL, hls, -, hremL, hupdL⟩ := findLevel_decomp hflvl
      have hlw := (hwf.2.1).1 lvl (findLevel_mem hflvl).1
      have hfield := hlw.2.2.2
      have hsum := hlw.2.2.1
      have hsum2 : lvl.total_quantity - o.quantity =
          ((pre ++ post).map (fun x => x.quantity)).sum := by
        rw [hord, List.map_append, List.map_cons, List.sum_append, List.sum_cons] at hsum
        rw [List.map_append, List.sum_append]
        omega
      have hpos2 : ∀ x ∈ pre ++ post, 0 < x.quantity := by
        intro x hx
        refine (hfield x ?_).2.2
        rw [hord]
        rcases List.mem_append.mp hx with h | h
        · exact List.mem_append_left _ h
        · exact List.mem_append_right _ (List.mem_cons_of_mem o h)
      refine remove_order_wf_core o hwf ?_ (by rw [hoid]) rfl hwf.1 ?_
      · refine ⟨queueOrders b.bids ++ (queueOrders preL ++ pre),
          post ++ queueOrders postL, ?_, ?_⟩
        · unfold allOrders
          rw [hls, queueOrders_append, queueOrders_cons, hord]
          simp [List.append_assoc]
        · by_cases hz : lvl.total_quantity - o.quantity = 0
          · have hpp : pre ++ post = [] :=
              sum_pos_eq_zero_nil hpos2 (by rw [← hsum2]; omega)
            obtain ⟨hpre0, hpost0⟩ := List.append_eq_nil.mp hpp
            unfold allOrders
            dsimp only
            rw [if_pos hz, hremL, queueOrders_append, hpre0, hpost0]
            simp [List.append_assoc]
          · unfold allOrders
            dsimp only
            rw [if_neg hz, hupdL ⟨lvl.price, pre ++ post, lvl.total_quantity - o.quantity⟩,
              queueOrders_append, queueOrders_cons]
            simp [List.append_assoc]
      · by_cases hz : lvl.total_quantity - o.quantity = 0
        · dsimp only
          rw [if_pos hz]
          exact removeLevel_sideWF hwf.2.1
        · dsimp only
          rw [if_neg hz]
          refine updateLevel_sideWF hwf.2.1 hflvl rfl ?_
          refine ⟨?_, hlw.2.1, hsum2, ?_⟩
          · intro hpp
            have hpp2 : pre ++ post = [] := hpp
            rw [hpp2] at hsum2
            exact hz hsum2
          · intro x hx
            have hx2 : x ∈ lvl.orders := by
              rw [hord]
              rcases List.mem_append.mp hx with h | h
              · exact List.mem_append_left _ h
              · exact List.mem_append_right _ (List.mem_cons_of_mem o h)
            exact hfield x hx2

/-
Facts about single trade iterations, FIFO preservation, and the trade trace.
-/

theorem fillOrders_eq_nil {o : Order} {rest : List Order} {t : Int}
    (h : fillOrders o rest t = []) : rest = [] := by
  unfold fillOrders at h
  by_cases hz : o.quantity - t = 0
  · rw [if_pos hz] at h; exact h
  · rw [if_neg hz] at h; cases h

/-- A trade iteration fills the two queue heads at the ask price, and under the
invariant its quantity is positive. -/
theorem execStep_trade_facts {b : OrderBook} {t : TradeRecord} {b2 : OrderBook}
    (h : execStep b = some (some t, b2)) :
    ∃ bl al bo brest ao arest,
      findLevel b.bids (get_best_bid b) = some bl ∧
      findLevel b.asks (get_best_ask b) = some al ∧
      bl.orders = bo :: brest ∧ al.orders = ao :: arest ∧
      t = ⟨bo.id, ao.id, min bo.quantity ao.quantity, get_best_ask b⟩ ∧
      b2 = (tradeFill b (get_best_bid b) (get_best_ask b) bl al bo brest ao arest).2 := by
  by_cases hg : get_best_bid b = -1 ∨ get_best_ask b = -1 ∨ get_best_bid b < get_best_ask b
  · rw [execStep_of_guard hg] at h; cases h
  · obtain ⟨bl, al, hbl, hal, hcase⟩ := execStep_char hg
    rcases hcase with ⟨-, hstep⟩ | ⟨bo, brest, ao, arest, hbo, hao, hstep⟩
    · rw [hstep] at h
      injection h with h2
      have := congrArg Prod.fst h2
      cases this
    · rw [hstep] at h
      injection h with h2
      have hfst := congrArg Prod.fst h2
      have hsnd := congrArg Prod.snd h2
      refine ⟨bl, al, bo, brest, ao, arest, hbl, hal, hbo, hao, ?_, hsnd.symm⟩
      have : (tradeFill b (get_best_bid b) (get_best_ask b) bl al bo brest ao arest).1 =
          ⟨bo.id, ao.id, min bo.quantity ao.quantity, get_best_ask b⟩ := rfl
      rw [← this]
      exact Option.some.inj hfst.symm

theorem execStep_trade_wf_facts {b : OrderBook} {t : TradeRecord} {b2 : OrderBook}
    (hwf : b.WF) (h : execStep b = some (some t, b2)) :
    1 ≤ t.quantity ∧ t.price = get_best_ask b ∧
      t.buy_id ∈ (queueOrders b.bids).map (fun x => x.id) ∧
      t.sell_id ∈ (queueOrders b.asks).map (fun x => x.id) := by
  obtain ⟨bl, al, bo, brest, ao, arest, hbl, hal, hbo, hao, ht, -⟩ := execStep_trade_facts h
  have hblmem := (findLevel_mem hbl).1
  have halmem := (findLevel_mem hal).1
  have hbomem : bo ∈ queueOrders b.bids :=
    mem_queueOrders.mpr ⟨bl, hblmem, hbo ▸ List.mem_cons_self bo brest⟩
  have haomem : ao ∈ queueOrders b.asks :=
    mem_queueOrders.mpr ⟨al, halmem, hao ▸ List.mem_cons_self ao arest⟩
  have hq1 : 0 < bo.quantity := (queue_fields hwf.1 hbomem).2
  have hq2 : 0 < ao.quantity := (queue_fields hwf.2.1 haomem).2
  rw [ht]
  refine ⟨?_, rfl, List.mem_map_of_mem _ hbomem, List.mem_map_of_mem _ haomem⟩
  show 1 ≤ min bo.quantity ao.quantity
  omega

/-- A loop iteration never touches an order behind the head of a bid queue. -/
theorem execStep_tail_bids {b : OrderBook} {t? : Option TradeRecord} {b2 : OrderBook}
    (h : execStep b = some (t?, b2)) :
    ∀ l ∈ b.bids, ∀ x ∈ l.orders.tail, ∃ l2 ∈ b2.bids, l2.price = l.price ∧ x ∈ l2.orders := by
  intro l hl x hx
  by_cases hg : get_best_bid b = -1 ∨ get_best_ask b = -1 ∨ get_best_bid b < get_best_ask b
  · rw [execStep_of_guard hg] at h; cases h
  · obtain ⟨bl, al, hbl, hal, hcase⟩ := execStep_char hg
    obtain ⟨-, pre, post, hls, -, hrem, hupd⟩ := findLevel_decomp hbl
    have hxmem : x ∈ l.orders := by
      cases horders : l.orders with
      | nil => rw [horders] at hx; cases hx
      | cons hd tl =>
        rw [horders] at hx
        exact horders ▸ List.mem_cons_of_mem hd hx
    rcases hcase with ⟨hempty, hstep⟩ | ⟨bo, brest, ao, arest, hbo, hao, hstep⟩
    · rw [hstep] at h
      injection h with h2
      have hb2 : b2 = cleanupStep b (get_best_bid b) (get_best_ask b) bl al :=
        (congrArg Prod.snd h2).symm
      subst hb2
      unfold cleanupStep
      dsimp only
      by_cases hblo : bl.orders = []
      · rw [if_pos hblo, hrem]
        rw [hls] at hl
        rcases List.mem_append.mp hl with hpre | hrest
        · exact ⟨l, List.mem_append_left _ hpre, rfl, hxmem⟩
        · rcases List.mem_cons.mp hrest with rfl | hpost
          · rw [hblo] at hxmem; cases hxmem
          · exact ⟨l, List.mem_append_right _ hpost, rfl, hxmem⟩
      · rw [if_neg hblo]
        exact ⟨l, hl, rfl, hxmem⟩
    · rw [hstep] at h
      injection h with h2
      have hb2 : b2 = (tradeFill b (get_best_bid b) (get_best_ask b) bl al bo brest ao arest).2 :=
        (congrArg Prod.snd h2).symm
      subst hb2
      show ∃ l2 ∈ shrinkSide b.bids (get_best_bid b)
        { bl with orders := fillOrders bo brest (min bo.quantity ao.quantity),
                  total_quantity := bl.total_quantity - min bo.quantity ao.quantity },
        l2.price = l.price ∧ x ∈ l2.orders
      unfold shrinkSide
      rw [hls] at hl
      rcases List.mem_append.mp hl with hpre | hrest
      · by_cases hnil : fillOrders bo brest (min bo.quantity ao.quantity) = []
        · rw [if_pos hnil, hrem]
          exact ⟨l, List.mem_append_left _ hpre, rfl, hxmem⟩
        · rw [if_neg hnil, hupd]
          exact ⟨l, List.mem_append_left _ hpre, rfl, hxmem⟩
      · rcases List.mem_cons.mp hrest with rfl | hpost
        · have hxin : x ∈ brest := by
            rw [hbo] at hx
            exact hx
          by_cases hnil : fillOrders bo brest (min bo.quantity ao.quantity) = []
          · rw [fillOrders_eq_nil hnil] at hxin
            cases hxin
          · rw [if_neg hnil, hupd]
            refine ⟨_, List.mem_append_right _ (List.mem_cons_self _ _), rfl, ?_⟩
            exact mem_fillOrders_of_mem_rest hxin
        · by_cases hnil : fillOrders bo brest (min bo.quantity ao.quantity) = []
          · rw [if_pos hnil, hrem]
            exact ⟨l, List.mem_append_right _ hpost, rfl, hxmem⟩
          · rw [if_neg hnil, hupd]
            exact ⟨l, List.mem_append_right _ (List.mem_cons_of_mem _ hpost), rfl, hxmem⟩

/-- A loop iteration never touches an order behind the head of an ask queue. -/
theorem execStep_tail_asks {b : OrderBook} {t? : Option TradeRecord} {b2 : OrderBook}
    (h : execStep b = some (t?, b2)) :
    ∀ l ∈ b.asks, ∀ x ∈ l.orders.tail, ∃ l2 ∈ b2.asks, l2.price = l.price ∧ x ∈ l2.orders := by
  intro l hl x hx
  by_cases hg : get_best_bid b = -1 ∨ get_best_ask b = -1 ∨ get_best_bid b < get_best_ask b
  · rw [execStep_of_guard hg] at h; cases h
  · obtain ⟨bl, al, hbl, hal, hcase⟩ := execStep_char hg
    obtain ⟨-, pre, post, hls, -, hrem, hupd⟩ := findLevel_decomp hal
    have hxmem : x ∈ l.orders := by
      cases horders : l.orders with
      | nil => rw [horders] at hx; cases hx
      | cons hd tl =>
        rw [horders] at hx
        exact horders ▸ List.mem_cons_of_mem hd hx
    rcases hcase with ⟨hempty, hstep⟩ | ⟨bo, brest, ao, arest, hbo, hao, hstep⟩
    · rw [hstep] at h
      injection h with h2
      have hb2 : b2 = cleanupStep b (get_best_bid b) (get_best_ask b) bl al :=
        (congrArg Prod.snd h2).symm
      subst hb2
      unfold cleanupStep
      dsimp only
      by_cases halo : al.orders = []
      · rw [if_pos halo, hrem]
        rw [hls] at hl
        rcases List.mem_append.mp hl with hpre | hrest
        · exact ⟨l, List.mem_append_left _ hpre, rfl, hxmem⟩
        · rcases List.mem_cons.mp hrest with rfl | hpost
          · rw [halo] at hxmem; cases hxmem
          · exact ⟨l, List.mem_append_right _ hpost, rfl, hxmem⟩
      · rw [if_neg halo]
        exact ⟨l, hl, rfl, hxmem⟩
    · rw [hstep] at h
      injection h with h2
      have hb2 : b2 = (tradeFill b (get_best_bid b) (get_best_ask b) bl al bo brest ao arest).2 :=
        (congrArg Prod.snd h2).symm
      subst hb2
      show ∃ l2 ∈ shrinkSide b.asks (get_best_ask b)
        { al with orders := fillOrders ao arest (min bo.quantity ao.quantity),
                  total_quantity := al.total_quantity - min bo.quantity ao.quantity },
        l2.price = l.price ∧ x ∈ l2.orders
      unfold shrinkSide
      rw [hls] at hl
      rcases List.mem_append.mp hl with hpre | hrest
      · by_cases hnil : fillOrders ao arest (min bo.quantity ao.quantity) = []
        · rw [if_pos hnil, hrem]
          exact ⟨l, List.mem_append_left _ hpre, rfl, hxmem⟩
        · rw [if_neg hnil, hupd]
          exact ⟨l, List.mem_append_left _ hpre, rfl, hxmem⟩
      · rcases List.mem_cons.mp hrest with rfl | hpost
        · have hxin : x ∈ arest := by
            rw [hao] at hx
            exact hx
          by_cases hnil : fillOrders ao arest (min bo.quantity ao.quantity) = []
          · rw [fillOrders_eq_nil hnil] at hxin
            cases hxin
          · rw [if_neg hnil, hupd]
            refine ⟨_, List.mem_append_right _ (List.mem_cons_self _ _), rfl, ?_⟩
            exact mem_fillOrders_of_mem_rest hxin
        · by_cases hnil : fillOrders ao arest (min bo.quantity ao.quantity) = []
          · rw [if_pos hnil, hrem]
            exact ⟨l, List.mem_append_right _ hpost, rfl, hxmem⟩
          · rw [if_neg hnil, hupd]
            exact ⟨l, List.mem_append_right _ (List.mem_cons_of_mem _ hpost), rfl, hxmem⟩

/-- One-iteration reachability between books during a single match call. -/
def StepRel (x y : OrderBook) : Prop := ∃ t?, execStep x = some (t?, y)

/-- Every trade record of a match run is produced by one iteration from a
reachable, invariant-satisfying intermediate book. -/
theorem execLoopN_trace :
    ∀ (fuel : Nat) (b : OrderBook), b.WF →
      ∀ t ∈ (execLoopN fuel b).1,
        ∃ c c2, Relation.ReflTransGen StepRel b c ∧ c.WF ∧
          execStep c = some (some t, c2) := by
  intro fuel
  induction fuel with
  | zero => intro b hwf t ht; cases ht
  | succ n ih =>
    intro b hwf t ht
    rw [execLoopN] at ht
    cases hstep : execStep b with
    | none => rw [hstep] at ht; cases ht
    | some pr =>
      obtain ⟨t0?, b2⟩ := pr
      rw [hstep] at ht
      cases t0? with
      | none =>
        obtain ⟨c, c2, hreach, hcwf, hcstep⟩ := ih b2 (execStep_wf hwf hstep) t ht
        exact ⟨c, c2, Relation.ReflTransGen.head ⟨none, hstep⟩ hreach, hcwf, hcstep⟩
      | some t0 =>
        rcases List.mem_cons.mp ht with rfl | ht2
        · exact ⟨b, b2, Relation.ReflTransGen.refl, hwf, hstep⟩
        · obtain ⟨c, c2, hreach, hcwf, hcstep⟩ := ih b2 (execStep_wf hwf hstep) t ht2
          exact ⟨c, c2, Relation.ReflTransGen.head ⟨some t0, hstep⟩ hreach, hcwf, hcstep⟩

/-
Round-trip: add then cancel restores the book except for the id counter.
-/

theorem findLevel_pre {pre post : List PriceLevel} {nl : PriceLevel} {p : Rat}
    (hpre : ∀ x ∈ pre, x.price ≠ p) (hnl : nl.price = p) :
    findLevel (pre ++ nl :: post) p = some nl := by
  induction pre with
  | nil => show findLevel (nl :: post) p = some nl; rw [findLevel, if_pos hnl]
  | cons hd tl ih =>
    show findLevel (hd :: (tl ++ nl :: post)) p = some nl
    rw [findLevel, if_neg (hpre hd (List.mem_cons_self hd tl))]
    exact ih (fun x hx => hpre x (List.mem_cons_of_mem hd hx))

theorem updateLevel_pre {pre post : List PriceLevel} {nl nl2 : PriceLevel} {p : Rat}
    (hpre : ∀ x ∈ pre, x.price ≠ p) (hnl : nl.price = p) :
    updateLevel (pre ++ nl :: post) p nl2 = pre ++ nl2 :: post := by
  induction pre with
  | nil => show updateLevel (nl :: post) p nl2 = nl2 :: post; rw [updateLevel, if_pos hnl]
  | cons hd tl ih =>
    show updateLevel (hd :: (tl ++ nl :: post)) p nl2 = hd :: (tl ++ nl2 :: post)
    rw [updateLevel, if_neg (hpre hd (List.mem_cons_self hd tl))]
    rw [ih (fun x hx => hpre x (List.mem_cons_of_mem hd hx))]

theorem removeFirstById_append_last {os : List Order} {o : Order}
    (h : ∀ x ∈ os, x.id ≠ o.id) :
    removeFirstById (os ++ [o]) o.id = some (o, os) := by
  induction os with
  | nil =>
    show removeFirstById [o] o.id = some (o, [])
    rw [removeFirstById, if_pos rfl]
  | cons hd tl ih =>
    show removeFirstById (hd :: (tl ++ [o])) o.id = some (o, hd :: tl)
    rw [removeFirstById, if_neg (h hd (List.mem_cons_self hd tl)),
      ih (fun x hx => h x (List.mem_cons_of_mem hd hx))]

theorem level_total_pos {buy : Bool} {lvl : PriceLevel} (h : levelWF buy lvl) :
    0 < lvl.total_quantity := by
  obtain ⟨hne, -, hsum, hfield⟩ := h
  cases horders : lvl.orders with
  | nil => exact absurd horders hne
  | cons hd tl =>
    rw [horders, List.map_cons, List.sum_cons] at hsum
    have h1 : 0 < hd.quantity := (hfield hd (horders ▸ List.mem_cons_self hd tl)).2.2
    have h2 : 0 ≤ (tl.map (fun x => x.quantity)).sum :=
      List.sum_nonneg (by
        intro y hy
        obtain ⟨x, hx, rfl⟩ := List.mem_map.mp hy
        exact le_of_lt (hfield x (horders ▸ List.mem_cons_of_mem hd hx)).2.2)
    omega

theorem queue_id_bound {b : OrderBook} (hwf : b.WF) {x : Order}
    (hx : x ∈ allOrders b) : 1 ≤ x.id ∧ x.id ≤ b.current_order_id :=
  hwf.2.2.2.2.2.2.2 _ (hwf.2.2.2.2.2.2.1 x hx)

theorem add_order_valid_parts {b : OrderBook} {buy : Bool} {q : Int} {p : Rat} {cid : Int}
    (h : ¬ (q ≤ 0 ∨ p ≤ 0)) :
    (b.add_order buy q p cid).1 = Except.ok (b.current_order_id + 1) ∧
    (b.add_order buy q p cid).2.current_order_id = b.current_order_id + 1 := by
  unfold OrderBook.add_order
  rw [if_neg h]
  dsimp only
  cases buy with
  | true =>
    rw [if_pos rfl]
    cases hfl : findLevel b.bids p <;> exact ⟨rfl, rfl⟩
  | false =>
    rw [if_neg (by simp : ¬ (false = true))]
    cases hfl : findLevel b.asks p <;> exact ⟨rfl, rfl⟩

theorem removeLevel_cons_pos {l : PriceLevel} {rest : List PriceLevel} {p : Rat}
    (h : l.price = p) : removeLevel (l :: rest) p = rest := by
  rw [removeLevel, if_pos h]

/-- Adding a valid order and cancelling the returned id restores the book up to
the id counter. -/
theorem add_cancel_roundtrip {b : OrderBook} {buy : Bool} {q : Int} {p : Rat} {cid : Int}
    (hwf : b.WF) (hq : 0 < q) (hp : 0 < p) :
    (b.add_order buy q p cid).1 = Except.ok (b.current_order_id + 1) ∧
    ((b.add_order buy q p cid).2).cancel_order (b.current_order_id + 1) =
      (Except.ok (), { b with current_order_id := b.current_order_id + 1 }) := by
  have hv : ¬ (q ≤ 0 ∨ p ≤ 0) := by
    rintro (h | h)
    · omega
    · exact absurd hp (not_lt.mpr h)
  have hfresh := fresh_id_not_in_map hwf
  refine ⟨(add_order_valid_parts hv).1, ?_⟩
  cases buy with
  | true =>
    cases hfl : findLevel b.bids p with
    | some lvl =>
      rw [add_order_buy_some hv hfl hfresh]
      obtain ⟨hlp, pre, post, hls, hpre, -, hupd⟩ := findLevel_decomp hfl
      have hfind1 : findId ((b.current_order_id + 1, true, p) :: b.order_id_map)
          (b.current_order_id + 1) = some (true, p) := by
        rw [findId, if_pos rfl]
      have hflvl1 : findLevel
          (updateLevel b.bids p
            (lvl.add_order ⟨b.current_order_id + 1, true, q, p, cid⟩)) p =
          some (lvl.add_order ⟨b.current_order_id + 1, true, q, p, cid⟩) := by
        rw [hupd]
        exact findLevel_pre hpre hlp
      have hids : ∀ x ∈ lvl.orders,
          x.id ≠ (⟨b.current_order_id + 1, true, q, p, cid⟩ : Order).id := by
        intro x hx
        have hxq : x ∈ queueOrders b.bids :=
          mem_queueOrders.mpr ⟨lvl, (findLevel_mem hfl).1, hx⟩
        have := queue_id_bound hwf (List.mem_append_left _ hxq)
        show x.id ≠ b.current_order_id + 1
        omega
      have hrem1 : removeFirstById
          (lvl.add_order ⟨b.current_order_id + 1, true, q, p, cid⟩).orders
          (b.current_order_id + 1) =
          some (⟨b.current_order_id + 1, true, q, p, cid⟩, lvl.orders) :=
        removeFirstById_append_last hids
      rw [cancel_order_eq_buy hfind1 hflvl1 hrem1]
      have htpos : 0 < lvl.total_quantity :=
        level_total_pos ((hwf.1).1 lvl (findLevel_mem hfl).1)
      have hz : ¬ ((lvl.add_order
            ⟨b.current_order_id + 1, true, q, p, cid⟩).total_quantity -
          (⟨b.current_order_id + 1, true, q, p, cid⟩ : Order).quantity = 0) := by
        show ¬ (lvl.total_quantity + q - q = 0)
        omega
      rw [if_neg hz]
      have hlvl2 : (⟨(lvl.add_order
              ⟨b.current_order_id + 1, true, q, p, cid⟩).price,
          lvl.orders,
          (lvl.add_order ⟨b.current_order_id + 1, true, q, p, cid⟩).total_quantity -
            (⟨b.current_order_id + 1, true, q, p, cid⟩ : Order).quantity⟩ :
            PriceLevel) = lvl := by
        show (⟨lvl.price, lvl.orders, lvl.total_quantity + q - q⟩ : PriceLevel) = lvl
        have h3 : lvl.total_quantity + q - q = lvl.total_quantity := by omega
        rw [h3]
      rw [hlvl2, hupd, updateLevel_pre hpre
        (show (lvl.add_order
          ⟨b.current_order_id + 1, true, q, p, cid⟩).price = p from hlp),
        removeId, if_pos rfl, ← hls]
    | none =>
      rw [add_order_buy_none hv hfl hfresh]
      have hfind1 : findId ((b.current_order_id + 1, true, p) :: b.order_id_map)
          (b.current_order_id + 1) = some (true, p) := by
        rw [findId, if_pos rfl]
      have hflvl1 : findLevel
          (PriceLevel.add_order ⟨p, [], 0⟩ ⟨b.current_order_id + 1, true, q, p, cid⟩ ::
            b.bids) p =
          some (PriceLevel.add_order ⟨p, [], 0⟩
            ⟨b.current_order_id + 1, true, q, p, cid⟩) := by
        rw [findLevel, if_pos (show (PriceLevel.add_order ⟨p, [], 0⟩
          ⟨b.current_order_id + 1, true, q, p, cid⟩).price = p from rfl)]
      have hrem1 : removeFirstById
          (PriceLevel.add_order ⟨p, [], 0⟩
            ⟨b.current_order_id + 1, true, q, p, cid⟩).orders
          (b.current_order_id + 1) =
          some (⟨b.current_order_id + 1, true, q, p, cid⟩, []) :=
        removeFirstById_append_last (by intro x hx; cases hx)
      rw [cancel_order_eq_buy hfind1 hflvl1 hrem1]
      have hz : (PriceLevel.add_order ⟨p, [], 0⟩
            ⟨b.current_order_id + 1, true, q, p, cid⟩).total_quantity -
          (⟨b.current_order_id + 1, true, q, p, cid⟩ : Order).quantity = 0 := by
        show (0 : Int) + q - q = 0
        omega
      rw [if_pos hz,
        removeLevel_cons_pos (show (PriceLevel.add_order ⟨p, [], 0⟩
          ⟨b.current_order_id + 1, true, q, p, cid⟩).price = p from rfl),
        removeId, if_pos rfl]
  | false =>
    cases hfl : findLevel b.asks p with
    | some lvl =>
      rw [add_order_sell_some hv hfl hfresh]
      obtain ⟨hlp, pre, post, hls, hpre, -, hupd⟩ := findLevel_decomp hfl
      have hfind1 : findId ((b.current_order_id + 1, false, p) :: b.order_id_map)
          (b.current_order_id + 1) = some (false, p) := by
        rw [findId, if_pos rfl]
      have hflvl1 : findLevel
          (updateLevel b.asks p
            (lvl.add_order ⟨b.current_order_id + 1, false, q, p, cid⟩)) p =
          some (lvl.add_order ⟨b.current_order_id + 1, false, q, p, cid⟩) := by
        rw [hupd]
        exact findLevel_pre hpre hlp
      have hids : ∀ x ∈ lvl.orders,
          x.id ≠ (⟨b.current_order_id + 1, false, q, p, cid⟩ : Order).id := by
        intro x hx
        have hxq : x ∈ queueOrders b.asks :=
          mem_queueOrders.mpr ⟨lvl, (findLevel_mem hfl).1, hx⟩
        have := queue_id_bound hwf (List.mem_append_right _ hxq)
        show x.id ≠ b.current_order_id + 1
        omega
      have hrem1 : removeFirstById
          (lvl.add_order ⟨b.current_order_id + 1, false, q, p, cid⟩).orders
          (b.current_order_id + 1) =
          some (⟨b.current_order_id + 1, false, q, p, cid⟩, lvl.orders) :=
        removeFirstById_append_last hids
      rw [cancel_order_eq_sell hfind1 hflvl1 hrem1]
      have htpos : 0 < lvl.total_quantity :=
        level_total_pos ((hwf.2.1).1 lvl (findLevel_mem hfl).1)
      have hz : ¬ ((lvl.add_order
            ⟨b.current_order_id + 1, false, q, p, cid⟩).total_quantity -
          (⟨b.current_order_id + 1, false, q, p, cid⟩ : Order).quantity = 0) := by
        show ¬ (lvl.total_quantity + q - q = 0)
        omega
      rw [if_neg hz]
      have hlvl2 : (⟨(lvl.add_order
              ⟨b.current_order_id + 1, false, q, p, cid⟩).price,
          lvl.orders,
          (lvl.add_order ⟨b.current_order_id + 1, false, q, p, cid⟩).total_quantity -
            (⟨b.current_order_id + 1, false, q, p, cid⟩ : Order).quantity⟩ :
            PriceLevel) = lvl := by
        show (⟨lvl.price, lvl.orders, lvl.total_quantity + q - q⟩ : PriceLevel) = lvl
        have h3 : lvl.total_quantity + q - q = lvl.total_quantity := by omega
        rw [h3]
      rw [hlvl2, hupd, updateLevel_pre hpre
        (show (lvl.add_order
          ⟨b.current_order_id + 1, false, q, p, cid⟩).price = p from hlp),
        removeId, if_pos rfl, ← hls]
    | none =>
      rw [add_order_sell_none hv hfl hfresh]
      have hfind1 : findId ((b.current_order_id + 1, false, p) :: b.order_id_map)
          (b.current_order_id + 1) = some (false, p) := by
        rw [findId, if_pos rfl]
      have hflvl1 : findLevel
          (PriceLevel.add_order ⟨p, [], 0⟩ ⟨b.current_order_id + 1, false, q, p, cid⟩ ::
            b.asks) p =
          some (PriceLevel.add_order ⟨p, [], 0⟩
            ⟨b.current_order_id + 1, false, q, p, cid⟩) := by
        rw [findLevel, if_pos (show (PriceLevel.add_order ⟨p, [], 0⟩
          ⟨b.current_order_id + 1, false, q, p, cid⟩).price = p from rfl)]
      have hrem1 : removeFirstById
          (PriceLevel.add_order ⟨p, [], 0⟩
            ⟨b.current_order_id + 1, false, q, p, cid⟩).orders
          (b.current_order_id + 1) =
          some (⟨b.current_order_id + 1, false, q, p, cid⟩, []) :=
        removeFirstById_append_last (by intro x hx; cases hx)
      rw [cancel_order_eq_sell hfind1 hflvl1 hrem1]
      have hz : (PriceLevel.add_order ⟨p, [], 0⟩
            ⟨b.current_order_id + 1, false, q, p, cid⟩).total_quantity -
          (⟨b.current_order_id + 1, false, q, p, cid⟩ : Order).quantity = 0 := by
        show (0 : Int) + q - q = 0
        omega
      rw [if_pos hz,
        removeLevel_cons_pos (show (PriceLevel.add_order ⟨p, [], 0⟩
          ⟨b.current_order_id + 1, false, q, p, cid⟩).price = p from rfl),
        removeId, if_pos rfl]

theorem findLevel_removeLevel_self {ls : List PriceLevel} {p : Rat} {l : PriceLevel}
    (hnd : (ls.map (fun x => x.price)).Nodup) (hfl : findLevel ls p = some l) :
    findLevel (removeLevel ls p) p = none := by
  obtain ⟨hlp, pre, post, hls, hpre, hrem, -⟩ := findLevel_decomp hfl
  rw [hrem]
  refine findLevel_eq_none.mpr ?_
  intro x hx
  rcases List.mem_append.mp hx with hx1 | hx2
  · exact hpre x hx1
  · intro hxp
    have h2 := hnd
    rw [hls, List.map_append, List.map_cons] at h2
    refine (nodup_split2 h2).2 ?_
    have hmem : x.price ∈ post.map (fun y => y.price) :=
      List.mem_map_of_mem (fun y => y.price) hx2
    rw [hxp, ← hlp] at hmem
    exact hmem

theorem add_order_ok_id {b : OrderBook} {buy : Bool} {q : Int} {p : Rat} {cid i : Int}
    (h : (b.add_order buy q p cid).1 = Except.ok i) :
    i = b.current_order_id + 1 ∧
    (b.add_order buy q p cid).2.current_order_id = b.current_order_id + 1 := by
  by_cases hv : q ≤ 0 ∨ p ≤ 0
  · rw [add_order_invalid hv] at h
    cases h
  · obtain ⟨h1, h2⟩ := add_order_valid_parts hv
    rw [h1] at h
    injection h with h3
    exact ⟨h3.symm, h2⟩

/-
Books used by the concrete end-to-end scenarios of the specification.
-/

def bookT1 : OrderBook := (emptyBook.add_order false 10 99 7).2

def bookT2 : OrderBook := (bookT1.add_order true 10 100 8).2

def bookF1 : OrderBook := (emptyBook.add_order true 5 100 7).2

def bookF2 : OrderBook := (bookF1.add_order true 5 100 7).2

def bookF3 : OrderBook := (bookF2.add_order false 5 100 7).2

def bookSnap : OrderBook := (emptyBook.add_order true 10 (mkRat 201 2) 7).2

/-
The claims.
-/

/-- C1: for every book state satisfying the book invariants, when match()
returns, either the bid side is empty, or the ask side is empty, or the best
(maximum) bid price is strictly less than the best (minimum) ask price. -/
theorem claim_C1 (b : OrderBook) (hwf : b.WF) :
    (b.execute_trades).2.bids = [] ∨ (b.execute_trades).2.asks = [] ∨
      get_best_bid (b.execute_trades).2 < get_best_ask (b.execute_trades).2 :=
  wf_quiescent_no_cross (execute_trades_wf hwf) (execute_trades_quiescent b)

theorem claim_C1_witness :
    bookT2.WF ∧
    ((bookT2.execute_trades).2.bids = [] ∨ (bookT2.execute_trades).2.asks = [] ∨
      get_best_bid (bookT2.execute_trades).2 < get_best_ask (bookT2.execute_trades).2) :=
  ⟨by decide, claim_C1 bookT2 (by decide)⟩

/-- C2: every TradeRecord emitted by match() carries price equal to the best
ask price at the instant of that fill, regardless of which of the two matched
orders arrived later; and after add(sell,10,99) returning id 1 and
add(buy,10,100) returning id 2 on an empty book, match() yields exactly one
trade with buy_id 2, sell_id 1, quantity 10, price 99. -/
theorem claim_C2 :
    (∀ b t b2, execStep b = some (some t, b2) → t.price = get_best_ask b) ∧
    (emptyBook.add_order false 10 99 7).1 = Except.ok 1 ∧
    (bookT1.add_order true 10 100 8).1 = Except.ok 2 ∧
    (bookT2.execute_trades).1 = [⟨2, 1, 10, 99⟩] := by
  refine ⟨?_, by decide, by decide, by decide⟩
  intro b t b2 h
  obtain ⟨bl, al, bo, brest, ao, arest, -, -, -, -, ht, -⟩ := execStep_trade_facts h
  rw [ht]

theorem claim_C2_witness :
    execStep bookT2 = some (some ⟨2, 1, 10, 99⟩, (bookT2.execute_trades).2) ∧
    (⟨2, 1, 10, 99⟩ : TradeRecord).price = get_best_ask bookT2 := by
  have h : execStep bookT2 = some (some ⟨2, 1, 10, 99⟩, (bookT2.execute_trades).2) := by
    decide
  exact ⟨h, claim_C2.1 bookT2 _ _ h⟩

/-- C3: matching respects strict FIFO time priority within a price level: a
trade iteration fills exactly the heads of the best bid and best ask queues,
and every order behind a queue head survives the iteration untouched; and
after add(buy,5,100) returning 1, add(buy,5,100) returning 2, add(sell,5,100)
returning 3, match() yields exactly [TRADE 1 3 5 100], id 1 is removed, and
id 2 still rests with remaining 5. -/
theorem claim_C3 :
    (∀ b t b2, execStep b = some (some t, b2) →
      ∃ bl al bo brest ao arest,
        findLevel b.bids (get_best_bid b) = some bl ∧ bl.orders = bo :: brest ∧
        findLevel b.asks (get_best_ask b) = some al ∧ al.orders = ao :: arest ∧
        t.buy_id = bo.id ∧ t.sell_id = ao.id) ∧
    (∀ b t? b2, execStep b = some (t?, b2) →
      (∀ l ∈ b.bids, ∀ x ∈ l.orders.tail,
        ∃ l2 ∈ b2.bids, l2.price = l.price ∧ x ∈ l2.orders) ∧
      (∀ l ∈ b.asks, ∀ x ∈ l.orders.tail,
        ∃ l2 ∈ b2.asks, l2.price = l.price ∧ x ∈ l2.orders)) ∧
    (bookF1.add_order true 5 100 7).1 = Except.ok 2 ∧
    (bookF2.add_order false 5 100 7).1 = Except.ok 3 ∧
    (bookF3.execute_trades).1 = [⟨1, 3, 5, 100⟩] ∧
    findId ((bookF3.execute_trades).2).order_id_map 1 = none ∧
    findLevel ((bookF3.execute_trades).2).bids 100 =
      some ⟨100, [⟨2, true, 5, 100, 7⟩], 5⟩ := by
  refine ⟨?_, ?_, by decide, by decide, by decide, by decide, by decide⟩
  · intro b t b2 h
    obtain ⟨bl, al, bo, brest, ao, arest, hbl, hal, hbo, hao, ht, -⟩ :=
      execStep_trade_facts h
    exact ⟨bl, al, bo, brest, ao, arest, hbl, hbo, hal, hao, by rw [ht], by rw [ht]⟩
  · intro b t? b2 h
    exact ⟨execStep_tail_bids h, execStep_tail_asks h⟩

theorem claim_C3_witness :
    execStep bookF3 = some (some ⟨1, 3, 5, 100⟩, (bookF3.execute_trades).2) ∧
    (∃ bl al bo brest ao arest,
      findLevel bookF3.bids (get_best_bid bookF3) = some bl ∧ bl.orders = bo :: brest ∧
      findLevel bookF3.asks (get_best_ask bookF3) = some al ∧ al.orders = ao :: arest ∧
      (⟨1, 3, 5, 100⟩ : TradeRecord).buy_id = bo.id ∧
      (⟨1, 3, 5, 100⟩ : TradeRecord).sell_id = ao.id) := by
  have h : execStep bookF3 = some (some ⟨1, 3, 5, 100⟩, (bookF3.execute_trades).2) := by
    decide
  exact ⟨h, claim_C3.1 bookF3 _ _ h⟩

/-- C4: every public operation (add, cancel, match) preserves the joint state
invariant: level totals equal the sum of their queued remaining quantities, no
empty level stays indexed, and the id map stays coherent with the queues. -/
theorem claim_C4 (b : OrderBook) (hwf : b.WF) :
    (∀ buy q p cid, ((b.add_order buy q p cid).2).WF) ∧
    (∀ oid, ((b.cancel_order oid).2).WF) ∧
    ((b.execute_trades).2).WF :=
  ⟨fun _ _ _ _ => add_order_wf hwf, fun _ => cancel_order_wf hwf, execute_trades_wf hwf⟩

theorem claim_C4_witness :
    bookF3.WF ∧ ((bookF3.add_order true 1 50 9).2).WF ∧
    ((bookF3.cancel_order 1).2).WF ∧ ((bookF3.execute_trades).2).WF :=
  ⟨by decide, (claim_C4 bookF3 (by decide)).1 true 1 50 9,
    (claim_C4 bookF3 (by decide)).2.1 1, (claim_C4 bookF3 (by decide)).2.2⟩

/-- C5: add fails with InvalidArgument exactly when quantity ≤ 0 or price ≤ 0,
no other error is possible, and on failure the entire book state is
unchanged. -/
theorem claim_C5 (b : OrderBook) (buy : Bool) (q : Int) (p : Rat) (cid : Int) :
    ((b.add_order buy q p cid).1 = Except.error BookError.invalidArgument ↔
      (q ≤ 0 ∨ p ≤ 0)) ∧
    (∀ e, (b.add_order buy q p cid).1 = Except.error e → e = BookError.invalidArgument) ∧
    ((q ≤ 0 ∨ p ≤ 0) → (b.add_order buy q p cid).2 = b) := by
  by_cases hv : q ≤ 0 ∨ p ≤ 0
  · rw [add_order_invalid hv]
    refine ⟨⟨fun _ => hv, fun _ => rfl⟩, ?_, fun _ => rfl⟩
    intro e he
    injection he with h2
    exact h2.symm
  · have h1 := (@add_order_valid_parts b buy q p cid hv).1
    refine ⟨⟨?_, fun hc => absurd hc hv⟩, ?_, fun hc => absurd hc hv⟩
    · intro hc
      rw [h1] at hc
      cases hc
    · intro e he
      rw [h1] at he
      cases he

theorem claim_C5_witness :
    ((0 : Int) ≤ 0 ∨ (100 : Rat) ≤ 0) ∧ (emptyBook.add_order true 0 100 7).2 = emptyBook :=
  ⟨Or.inl (by decide), (claim_C5 emptyBook true 0 100 7).2.2 (Or.inl (by decide))⟩

/-- C6: cancel(id) fails with NotFound exactly when id is absent from the id
map (hence also after a full fill or a previous cancel), the failed call leaves
the book unchanged, and a successful cancel removes the order from its level's
queue, decrements the level total by the order's remaining, drops the level
when it empties, removes the id from the map, and leaves everything else
alone. -/
theorem claim_C6 (b : OrderBook) (oid : Int) (hwf : b.WF) :
    ((b.cancel_order oid).1 = Except.error BookError.notFound ↔
      findId b.order_id_map oid = none) ∧
    ((b.cancel_order oid).1 = Except.error BookError.notFound →
      (b.cancel_order oid).2 = b) ∧
    (∀ buy p, findId b.order_id_map oid = some (buy, p) →
      (b.cancel_order oid).1 = Except.ok () ∧
      findId ((b.cancel_order oid).2).order_id_map oid = none ∧
      (∀ oid2, oid2 ≠ oid →
        findId ((b.cancel_order oid).2).order_id_map oid2 =
          findId b.order_id_map oid2) ∧
      cond buy ((b.cancel_order oid).2).asks ((b.cancel_order oid).2).bids =
        cond buy b.asks b.bids ∧
      ∃ lvl o pre post,
        findLevel (cond buy b.bids b.asks) p = some lvl ∧
        lvl.orders = pre ++ o :: post ∧ o.id = oid ∧
        (if lvl.total_quantity - o.quantity = 0 then
          findLevel (cond buy ((b.cancel_order oid).2).bids
            ((b.cancel_order oid).2).asks) p = none
         else ∃ lvl2,
          findLevel (cond buy ((b.cancel_order oid).2).bids
            ((b.cancel_order oid).2).asks) p = some lvl2 ∧
          lvl2.orders = pre ++ post ∧
          lvl2.total_quantity = lvl.total_quantity - o.quantity)) ∧
    ((b.cancel_order oid).1 = Except.ok () →
      (((b.cancel_order oid).2).cancel_order oid).1 = Except.error BookError.notFound) := by
  cases hfind : findId b.order_id_map oid with
  | none =>
    rw [cancel_order_notFound hfind]
    refine ⟨⟨fun _ => rfl, fun _ => rfl⟩, fun _ => rfl, ?_, ?_⟩
    · intro buy p hsome
      cases hsome
    · intro hc
      cases hc
  | some v =>
    obtain ⟨buy, p⟩ := v
    cases buy with
    | true =>
      obtain ⟨lvl, o, pre, post, hflvl, hord, hoid, hobuy, hoprice, hrem⟩ :=
        cancel_locate_buy hwf hfind
      rw [cancel_order_eq_buy hfind hflvl hrem]
      dsimp only
      refine ⟨⟨?_, ?_⟩, ?_, ?_, ?_⟩
      · intro hc; cases hc
      · intro hc; cases hc
      · intro hc; cases hc
      · intro buy2 p2 hsome
        injection hsome with h2
        obtain ⟨rfl, rfl⟩ : buy2 = true ∧ p2 = p :=
          ⟨(congrArg Prod.fst h2).symm, (congrArg Prod.snd h2).symm⟩
        refine ⟨rfl, findId_removeId_self hwf.2.2.2.1,
          fun oid2 hne => findId_removeId_ne hne, rfl, ?_⟩
        refine ⟨lvl, o, pre, post, hflvl, hord, hoid, ?_⟩
        by_cases hz : lvl.total_quantity - o.quantity = 0
        · rw [if_pos hz, if_pos hz]
          exact findLevel_removeLevel_self (hwf.1).2 hflvl
        · rw [if_neg hz, if_neg hz]
          obtain ⟨hlp, preL, postL, hls, hpreL, -, hupd⟩ := findLevel_decomp hflvl
          refine ⟨⟨lvl.price, pre ++ post, lvl.total_quantity - o.quantity⟩, ?_, rfl, rfl⟩
          rw [hupd]
          exact findLevel_pre hpreL hlp
      · intro hc
        rw [cancel_order_notFound (findId_removeId_self hwf.2.2.2.1)]
    | false =>
      obtain ⟨lvl, o, pre, post, hflvl, hord, hoid, hobuy, hoprice, hrem⟩ :=
        cancel_locate_sell hwf hfind
      rw [cancel_order_eq_sell hfind hflvl hrem]
      dsimp only
      refine ⟨⟨?_, ?_⟩, ?_, ?_, ?_⟩
      · intro hc; cases hc
      · intro hc; cases hc
      · intro hc; cases hc
      · intro buy2 p2 hsome
        injection hsome with h2
        obtain ⟨rfl, rfl⟩ : buy2 = false ∧ p2 = p :=
          ⟨(congrArg Prod.fst h2).symm, (congrArg Prod.snd h2).symm⟩
        refine ⟨rfl, findId_removeId_self hwf.2.2.2.1,
          fun oid2 hne => findId_removeId_ne hne, rfl, ?_⟩
        refine ⟨lvl, o, pre, post, hflvl, hord, hoid, ?_⟩
        by_cases hz : lvl.total_quantity - o.quantity = 0
        · rw [if_pos hz, if_pos hz]
          exact findLevel_removeLevel_self (hwf.2.1).2 hflvl
        · rw [if_neg hz, if_neg hz]
          obtain ⟨hlp, preL, postL, hls, hpreL, -, hupd⟩ := findLevel_decomp hflvl
          refine ⟨⟨lvl.price, pre ++ post, lvl.total_quantity - o.quantity⟩, ?_, rfl, rfl⟩
          rw [hupd]
          exact findLevel_pre hpreL hlp
      · intro hc
        rw [cancel_order_notFound (findId_removeId_self hwf.2.2.2.1)]

theorem claim_C6_witness :
    bookF1.WF ∧
    ((bookF1.cancel_order 1).1 = Except.error BookError.notFound ↔
      findId bookF1.order_id_map 1 = none) :=
  ⟨by decide, (claim_C6 bookF1 1 (by decide)).1⟩

/-- C7: for every invariant-satisfying book and valid arguments, performing
add and then cancel of the returned id leaves the book identical to its state
before the add, except for the id counter. -/
theorem claim_C7 (b : OrderBook) (buy : Bool) (q : Int) (p : Rat) (cid : Int)
    (hwf : b.WF) (hq : 0 < q) (hp : 0 < p) :
    (b.add_order buy q p cid).1 = Except.ok (b.current_order_id + 1) ∧
    ((b.add_order buy q p cid).2).cancel_order (b.current_order_id + 1) =
      (Except.ok (), { b with current_order_id := b.current_order_id + 1 }) :=
  add_cancel_roundtrip hwf hq hp

theorem claim_C7_witness :
    bookF3.WF ∧ (0 : Int) < 2 ∧ (0 : Rat) < 101 ∧
    ((bookF3.add_order true 2 101 9).1 =
        Except.ok (bookF3.current_order_id + 1) ∧
      ((bookF3.add_order true 2 101 9).2).cancel_order (bookF3.current_order_id + 1) =
        (Except.ok (), { bookF3 with current_order_id := bookF3.current_order_id + 1 })) :=
  ⟨by decide, by decide, by decide,
    claim_C7 bookF3 true 2 101 9 (by decide) (by decide) (by decide)⟩

/-- C8: ids returned by successive successful add calls strictly increase,
every assigned id is positive on an invariant-satisfying book, and the first
successful add on a fresh book returns 1. -/
theorem claim_C8 :
    (∀ (b : OrderBook) (buy : Bool) (q : Int) (p : Rat) (cid : Int)
        (buy2 : Bool) (q2 : Int) (p2 : Rat) (cid2 i1 i2 : Int),
      (b.add_order buy q p cid).1 = Except.ok i1 →
      (((b.add_order buy q p cid).2).add_order buy2 q2 p2 cid2).1 = Except.ok i2 →
      i1 < i2) ∧
    (∀ (b : OrderBook) (buy : Bool) (q : Int) (p : Rat) (cid i : Int),
      b.WF → (b.add_order buy q p cid).1 = Except.ok i → 1 ≤ i) ∧
    (∀ (buy : Bool) (q : Int) (p : Rat) (cid : Int), 0 < q → 0 < p →
      (emptyBook.add_order buy q p cid).1 = Except.ok 1) := by
  refine ⟨?_, ?_, ?_⟩
  · intro b buy q p cid buy2 q2 p2 cid2 i1 i2 h1 h2
    obtain ⟨hi1, hcur⟩ := add_order_ok_id h1
    obtain ⟨hi2, -⟩ := add_order_ok_id h2
    rw [hcur] at hi2
    omega
  · intro b buy q p cid i hwf h
    obtain ⟨hi, -⟩ := add_order_ok_id h
    have := hwf.2.2.1
    omega
  · intro buy q p cid hq hp
    have hv : ¬ (q ≤ 0 ∨ p ≤ 0) := by
      rintro (h | h)
      · omega
      · exact absurd hp (not_lt.mpr h)
    exact (add_order_valid_parts hv).1

theorem claim_C8_witness :
    (1 : Int) < 2 ∧ (1 : Int) ≤ 1 ∧ (emptyBook.add_order true 5 100 7).1 = Except.ok 1 :=
  ⟨claim_C8.1 emptyBook true 5 100 7 false 3 99 8 1 2 (by decide) (by decide),
    claim_C8.2.1 emptyBook true 5 100 7 1 (by decide) (by decide),
    claim_C8.2.2 true 5 100 7 (by decide) (by decide)⟩

/-- C9: the book stores the bid at its exact price 100.5, but the snapshot
copies the level prices into an integer vector (truncating 100.5 to 100) and
then looks 100 up among the double-keyed levels, so get_order_book_string
throws std::out_of_range (modelled as an error) instead of producing the
claimed "  100.5 : 10" line. -/
theorem claim_C9 :
    (emptyBook.add_order true 10 (mkRat 201 2) 7).1 = Except.ok 1 ∧
    findLevel bookSnap.bids (mkRat 201 2) =
      some ⟨mkRat 201 2, [⟨1, true, 10, mkRat 201 2, 7⟩], 10⟩ ∧
    bookSnap.get_order_book_string = Except.error () := by
  decide

/-- C10: on an invariant-satisfying book, every TradeRecord emitted by a
single match() call has quantity at least 1, and it is produced by one loop
iteration from a reachable intermediate book in which its buy_id and sell_id
are ids of orders resting on the bid and ask side at that moment. -/
theorem claim_C10 (b : OrderBook) (hwf : b.WF) :
    ∀ t ∈ (b.execute_trades).1,
      1 ≤ t.quantity ∧
      ∃ c c2, Relation.ReflTransGen StepRel b c ∧ execStep c = some (some t, c2) ∧
        t.buy_id ∈ (queueOrders c.bids).map (fun x => x.id) ∧
        t.sell_id ∈ (queueOrders c.asks).map (fun x => x.id) := by
  intro t ht
  obtain ⟨c, c2, hreach, hcwf, hcstep⟩ :=
    execLoopN_trace (bookMeasure b + 1) b hwf t ht
  obtain ⟨h1, -, h3, h4⟩ := execStep_trade_wf_facts hcwf hcstep
  exact ⟨h1, c, c2, hreach, hcstep, h3, h4⟩

theorem claim_C10_witness :
    bookF3.WF ∧ (⟨1, 3, 5, 100⟩ : TradeRecord) ∈ (bookF3.execute_trades).1 ∧
    1 ≤ (⟨1, 3, 5, 100⟩ : TradeRecord).quantity :=
  ⟨by decide, by decide, (claim_C10 bookF3 (by decide) ⟨1, 3, 5, 100⟩ (by decide)).1⟩

end MatchEngine
